import Mathlib

/-!
Reordering the rows of the language table (`qt/preferences_dialog.cpp`).

The preferences dialog shows the preferred languages in a two-column table
(column 0: language code, column 1: display name).  The two slots
`OnUpClick` and `OnDownClick` move the selected rows one position up or down.

Embedding.

* The widget is a list of rows, every row holding two cells; a cell is an
  `Option` (the item pointer of the cell, `none` for a null pointer).
* `takeItem`, `setItem` and `item` follow the contract of the table widget:
  a cell outside the table holds no item (`takeItem` and `item` return a null
  pointer there), a write to a cell outside the table is ignored, and writing a
  null pointer empties the cell.
* A selection is the list returned by `selectedRanges()`; a range is the four
  integers of `QTableWidgetSelectionRange`.  The selection that a slot leaves
  behind is the list it passes to `setRangeSelected(_, true)`.
* Row and column numbers are `Int` (the C++ type is `int`); the ranges handled
  here are row numbers of the table, shifted by one at most, so no wrap-around
  arises.
* A counted `for` loop is the fold of its body over the list of values that the
  loop variable takes (`upRows`, `downRows`), so every loop terminates.
-/

namespace qt

/-! ## The table widget -/

/-- One row of the table: the items of column 0 and of column 1. -/
structure Row (α : Type) where
  code : Option α
  name : Option α
deriving DecidableEq, Repr

/-- The table: its rows from top to bottom. -/
abbrev Table (α : Type) := List (Row α)

/-- The item held by one cell of a row (the table has the columns 0 and 1). -/
def Row.cell {α : Type} (r : Row α) (column : Int) : Option α :=
  if column = 0 then r.code else if column = 1 then r.name else none

/-- Replace the item of one cell of a row. -/
def Row.setCell {α : Type} (r : Row α) (column : Int) (it : Option α) : Row α :=
  if column = 0 then { r with code := it }
  else if column = 1 then { r with name := it }
  else r

/-- Widget call `QTableWidget::item(row, column)`: the item of a cell, null outside the table. -/
def item {α : Type} (widget : Table α) (row column : Int) : Option α :=
  if row < 0 then none
  else
    match widget[row.toNat]? with
    | some r => r.cell column
    | none => none

/-- Widget call `QTableWidget::setItem(row, column, item)`: the cell now holds `item`;
a cell outside the table is left alone. -/
def setItem {α : Type} (widget : Table α) (row column : Int) (it : Option α) : Table α :=
  if row < 0 then widget
  else
    match widget[row.toNat]? with
    | some r => widget.set row.toNat (r.setCell column it)
    | none => widget

/-- Widget call `QTableWidget::takeItem(row, column)`: the item of the cell is handed out and
the cell is left empty. -/
def takeItem {α : Type} (widget : Table α) (row column : Int) : Option α × Table α :=
  (item widget row column, setItem widget row column none)

/-- Widget call `QTableWidget::rowCount()`: the number of rows. -/
def rowCount {α : Type} (widget : Table α) : Int := widget.length

/-- The whole row at an index, `none` outside the table. -/
def rowAt {α : Type} (widget : Table α) (row : Int) : Option (Row α) :=
  if row < 0 then none else widget[row.toNat]?

/-! ## Selection ranges -/

/-- The four numbers of a `QTableWidgetSelectionRange`, in constructor order. -/
structure QTableWidgetSelectionRange where
  topRow : Int
  leftColumn : Int
  bottomRow : Int
  rightColumn : Int
deriving DecidableEq, Repr

/-- Number of rows of a range, `QTableWidgetSelectionRange::rowCount()`. -/
def QTableWidgetSelectionRange.rowCount (r : QTableWidgetSelectionRange) : Int :=
  r.bottomRow - r.topRow + 1

/-- A selection: the list of ranges as `selectedRanges()` delivers it. -/
abbrev Selection := List QTableWidgetSelectionRange

/-! ## The code of `preferences_dialog.cpp` -/

/-- Function `SwapRows(widget, row1, row2)`, statement by statement. -/
def SwapRows {α : Type} (widget : Table α) (row1 row2 : Int) : Table α :=
  let (c0, w1) := takeItem widget row1 0
  let (c1, w2) := takeItem w1 row1 1
  let (a0, w3) := takeItem w2 row2 0
  let w4 := setItem w3 row1 0 a0
  let (a1, w5) := takeItem w4 row2 1
  let w6 := setItem w5 row1 1 a1
  let w7 := setItem w6 row2 0 c0
  setItem w7 row2 1 c1

/-- Function `ShiftSelectionRange(range, offset)`: every range is rebuilt with both row
numbers moved by `offset` and the columns kept. -/
def ShiftSelectionRange (range : Selection) (offset : Int) : Selection :=
  range.map fun r =>
    { topRow := r.topRow + offset, leftColumn := r.leftColumn,
      bottomRow := r.bottomRow + offset, rightColumn := r.rightColumn }

/-- The values of `j` in the inner loop of `OnUpClick`:
`topRow, topRow + 1, ..., topRow + rowCount - 1`. -/
def upRows (r : QTableWidgetSelectionRange) : List Int :=
  (List.range r.rowCount.toNat).map fun (k : Nat) => r.topRow + (k : Int)

/-- The values of `j` in the inner loop of `OnDownClick`:
`bottomRow, bottomRow - 1, ..., bottomRow - rowCount + 1`. -/
def downRows (r : QTableWidgetSelectionRange) : List Int :=
  (List.range r.rowCount.toNat).map fun (k : Nat) => r.bottomRow - (k : Int)

/-- The inner loop of `OnUpClick` for one range: `SwapRows(j, j - 1)` for each `j`. -/
def upRange {α : Type} (widget : Table α) (r : QTableWidgetSelectionRange) : Table α :=
  (upRows r).foldl (fun w j => SwapRows w j (j - 1)) widget

/-- The inner loop of `OnDownClick` for one range: `SwapRows(j, j + 1)` for each `j`. -/
def downRange {α : Type} (widget : Table α) (r : QTableWidgetSelectionRange) : Table α :=
  (downRows r).foldl (fun w j => SwapRows w j (j + 1)) widget

/-- The test `selSize && selection[0].topRow() > 0` of `OnUpClick`. -/
def upGuard (selection : Selection) : Bool :=
  match selection with
  | [] => false
  | first :: _ => decide (first.topRow > 0)

/-- The test `selSize && selection[selSize - 1].bottomRow() < rowCount() - 1`
of `OnDownClick`. -/
def downGuard {α : Type} (widget : Table α) (selection : Selection) : Bool :=
  match selection.getLast? with
  | none => false
  | some last => decide (last.bottomRow < rowCount widget - 1)

/-- Slot `PreferencesDialog::OnUpClick` (`MoveSelectionUp` of the specification): the
table and the selection after the click.  The ranges are taken from the first one to
the last; the calls that only change highlighting or scroll the view are left out,
and the selection left behind is the shifted list handed to
`setRangeSelected(_, true)`. -/
def OnUpClick {α : Type} (widget : Table α) (selection : Selection) : Table α × Selection :=
  if upGuard selection then
    (selection.foldl upRange widget, ShiftSelectionRange selection (-1))
  else
    (widget, selection)

/-- Slot `PreferencesDialog::OnDownClick` (`MoveSelectionDown` of the specification):
the table and the selection after the click.  The ranges are taken from the last one
to the first (`i = selSize - 1, ..., 0`). -/
def OnDownClick {α : Type} (widget : Table α) (selection : Selection) : Table α × Selection :=
  if downGuard widget selection then
    (selection.reverse.foldl downRange widget, ShiftSelectionRange selection 1)
  else
    (widget, selection)

/-! ## Vocabulary of the specification -/

/-- A row of the sequence with both cells filled. -/
def Row.mk2 {α : Type} (c n : α) : Row α := { code := some c, name := some n }

/-- The range of the whole rows `top .. bottom` of the two-column table. -/
def rowRange (top bottom : Int) : QTableWidgetSelectionRange :=
  { topRow := top, leftColumn := 0, bottomRow := bottom, rightColumn := 1 }

/-- Both row numbers of every range lie within `0 .. n - 1`. -/
def InBounds (n : Nat) (sel : Selection) : Prop :=
  ∀ r ∈ sel, 0 ≤ r.topRow ∧ r.topRow < n ∧ 0 ≤ r.bottomRow ∧ r.bottomRow < n

/-- Every range describes at least one row. -/
def NonEmptyRanges (sel : Selection) : Prop :=
  ∀ r ∈ sel, r.topRow ≤ r.bottomRow

/-- Two ranges share a row. -/
def Overlap (a b : QTableWidgetSelectionRange) : Prop :=
  max a.topRow b.topRow ≤ min a.bottomRow b.bottomRow

/-- No two ranges of the list share a row. -/
def NonOverlapping (sel : Selection) : Prop :=
  sel.Pairwise fun a b => ¬ Overlap a b

/-- The ranges are listed in ascending order of `topRow`. -/
def AscendingTop (sel : Selection) : Prop :=
  sel.Pairwise fun a b => a.topRow ≤ b.topRow

/-- The ranges are listed in ascending order of `bottomRow`. -/
def AscendingBottom (sel : Selection) : Prop :=
  sel.Pairwise fun a b => a.bottomRow ≤ b.bottomRow

/-- A well-formed selection of a table of `n` rows: ranges within bounds, each of
at least one row, not overlapping, ascending by `topRow`. -/
def WellFormed (n : Nat) (sel : Selection) : Prop :=
  InBounds n sel ∧ NonEmptyRanges sel ∧ NonOverlapping sel ∧ AscendingTop sel

/-- No range starts on the row right below the end of an earlier one. -/
def NonAdjacent (sel : Selection) : Prop :=
  sel.Pairwise fun a b => a.bottomRow + 1 ≠ b.topRow

/-- The row number is covered by some range of the selection. -/
def Selected (sel : Selection) (p : Int) : Prop :=
  ∃ r ∈ sel, r.topRow ≤ p ∧ p ≤ r.bottomRow

instance (n : Nat) (sel : Selection) : Decidable (InBounds n sel) := by
  unfold InBounds; infer_instance

instance (sel : Selection) : Decidable (NonEmptyRanges sel) := by
  unfold NonEmptyRanges; infer_instance

instance (a b : QTableWidgetSelectionRange) : Decidable (Overlap a b) := by
  unfold Overlap; infer_instance

instance (sel : Selection) : Decidable (NonOverlapping sel) := by
  unfold NonOverlapping; infer_instance

instance (sel : Selection) : Decidable (AscendingTop sel) := by
  unfold AscendingTop; infer_instance

instance (sel : Selection) : Decidable (AscendingBottom sel) := by
  unfold AscendingBottom; infer_instance

instance (n : Nat) (sel : Selection) : Decidable (WellFormed n sel) := by
  unfold WellFormed; infer_instance

instance (sel : Selection) : Decidable (NonAdjacent sel) := by
  unfold NonAdjacent; infer_instance

instance (sel : Selection) (p : Int) : Decidable (Selected sel p) := by
  unfold Selected; infer_instance

/-- The identities (the items of column 0, read with `item` as `done` does) found at
the row numbers covered by the selection, range by range. -/
def selectedIds {α : Type} (widget : Table α) (sel : Selection) : List (Option α) :=
  sel.flatMap fun r => (upRows r).map fun j => item widget j 0

/-- The calls `SwapRows(row1, row2)` that `OnUpClick` makes, in the order in which it
makes them: `(j, j - 1)` for every range in turn and every `j` of its inner loop, and
none when the test fails. -/
def upSwaps (selection : Selection) : List (Int × Int) :=
  if upGuard selection then
    selection.flatMap fun r => (upRows r).map fun j => (j, j - 1)
  else
    []

/-- The calls `SwapRows(row1, row2)` that `OnDownClick` makes, in the order in which it
makes them: `(j, j + 1)` for every range from the last to the first and every `j` of
its inner loop, and none when the test fails. -/
def downSwaps {α : Type} (widget : Table α) (selection : Selection) : List (Int × Int) :=
  if downGuard widget selection then
    selection.reverse.flatMap fun r => (downRows r).map fun j => (j, j + 1)
  else
    []

/-- The table after a list of calls of `SwapRows`. -/
def runSwaps {α : Type} (widget : Table α) (swaps : List (Int × Int)) : Table α :=
  swaps.foldl (fun w p => SwapRows w p.1 p.2) widget

/-- The state after `k` clicks on the up button, each on the state left by the
click before: the ranges that a click reads with `selectedRanges()` are taken to be
the ranges that the click before selected with `setRangeSelected(_, true)`. -/
def repeatUp {α : Type} (k : Nat) (widget : Table α) (sel : Selection) : Table α × Selection :=
  match k with
  | 0 => (widget, sel)
  | k + 1 => OnUpClick (repeatUp k widget sel).1 (repeatUp k widget sel).2

/-- The state after `k` clicks on the down button, each on the state left by the
click before. -/
def repeatDown {α : Type} (k : Nat) (widget : Table α) (sel : Selection) :
    Table α × Selection :=
  match k with
  | 0 => (widget, sel)
  | k + 1 => OnDownClick (repeatDown k widget sel).1 (repeatDown k widget sel).2

/-- The selected row numbers form one contiguous run: every row number between two
selected ones is selected. -/
def OneRun (sel : Selection) : Prop :=
  ∀ a b p : Int, Selected sel a → Selected sel b → a ≤ p → p ≤ b → Selected sel p

/-- The mirror image of a range in a table of `n` rows: `(t, b)` becomes
`(n - 1 - b, n - 1 - t)`, the columns stay. -/
def mirrorRange (n : Int) (r : QTableWidgetSelectionRange) : QTableWidgetSelectionRange :=
  { topRow := n - 1 - r.bottomRow, leftColumn := r.leftColumn,
    bottomRow := n - 1 - r.topRow, rightColumn := r.rightColumn }

/-- The mirror image of a selection in a table of `n` rows: the list of ranges in
reverse order, every range mirrored. -/
def mirror (n : Int) (sel : Selection) : Selection :=
  sel.reverse.map (mirrorRange n)

/-- A table of three languages. -/
def abc : Table String :=
  [Row.mk2 "A" "a", Row.mk2 "B" "b", Row.mk2 "C" "c"]

/-- A table of five languages. -/
def abcde : Table String :=
  [Row.mk2 "A" "a", Row.mk2 "B" "b", Row.mk2 "C" "c", Row.mk2 "D" "d", Row.mk2 "E" "e"]


/-! ## Cells and rows -/

section Swap
variable {α : Type}

theorem getElem?_setItem (w : Table α) (i : Nat) (c : Int) (v : Option α) (p : Nat) :
    (setItem w (i : Int) c v)[p]? =
      if p = i then (w[i]?).map (fun r => r.setCell c v) else w[p]? := by
  unfold setItem
  have h0 : ¬ ((i : Int) < 0) := by omega
  simp only [h0, if_false, Int.toNat_ofNat]
  cases hi : w[i]? with
  | none =>
    by_cases hp : p = i
    · subst hp; simp [hi]
    · simp [hp]
  | some r =>
    have hlt : i < w.length := by
      by_contra hc
      rw [List.getElem?_eq_none (by omega)] at hi
      cases hi
    by_cases hp : p = i
    · subst hp; simp [List.getElem?_set, hlt]
    · have : i ≠ p := fun h => hp h.symm
      simp [List.getElem?_set, this, hp]

theorem item_natCast (w : Table α) (i : Nat) (c : Int) :
    item w (i : Int) c = (w[i]?).bind (fun r => r.cell c) := by
  unfold item
  have h0 : ¬ ((i : Int) < 0) := by omega
  simp only [h0, if_false, Int.toNat_ofNat]
  cases w[i]? <;> rfl

theorem length_setItem (w : Table α) (i c : Int) (v : Option α) :
    (setItem w i c v).length = w.length := by
  unfold setItem
  split
  · rfl
  · split <;> simp

/-- Function `SwapRows` never changes the number of rows. -/
theorem length_SwapRows (w : Table α) (i j : Int) : (SwapRows w i j).length = w.length := by
  simp [SwapRows, takeItem, length_setItem]

/-- Within the table, `SwapRows` exchanges the two rows and keeps all others. -/
theorem getElem?_SwapRows (w : Table α) (i j : Nat) (hi : i < w.length) (hj : j < w.length)
    (hij : i ≠ j) (p : Nat) :
    (SwapRows w (i : Int) (j : Int))[p]? =
      if p = j then w[i]? else if p = i then w[j]? else w[p]? := by
  obtain ⟨a, ha⟩ : ∃ a, w[i]? = some a := ⟨w[i], List.getElem?_eq_getElem hi⟩
  obtain ⟨b, hb⟩ : ∃ b, w[j]? = some b := ⟨w[j], List.getElem?_eq_getElem hj⟩
  have hji : j ≠ i := fun h => hij h.symm
  simp only [SwapRows, takeItem, getElem?_setItem, item_natCast]
  by_cases hpj : p = j
  · subst hpj
    simp [hij, hji, ha, hb, Row.setCell, Row.cell]
  · by_cases hpi : p = i
    · subst hpi
      simp [hij, hji, ha, hb, Row.setCell, Row.cell]
    · simp [hpj, hpi]

theorem rowAt_natCast (w : Table α) (n : Nat) : rowAt w (n : Int) = w[n]? := by
  unfold rowAt
  have h0 : ¬ ((n : Int) < 0) := by omega
  simp [h0]

theorem rowAt_neg (w : Table α) (p : Int) (hp : p < 0) : rowAt w p = none := by
  simp [rowAt, hp]

/-- Two tables with the same row at every index are equal. -/
theorem ext_rowAt {w w' : Table α} (h : ∀ p : Int, rowAt w p = rowAt w' p) : w = w' := by
  apply List.ext_getElem?
  intro n
  have := h (n : Int)
  rwa [rowAt_natCast, rowAt_natCast] at this

/-- The rows of the table after an exchange of two different rows of the table. -/
theorem rowAt_SwapRows (w : Table α) (i j : Int) (hi0 : 0 ≤ i) (hi : i < w.length)
    (hj0 : 0 ≤ j) (hj : j < w.length) (hij : i ≠ j) (p : Int) :
    rowAt (SwapRows w i j) p =
      if p = j then rowAt w i else if p = i then rowAt w j else rowAt w p := by
  obtain ⟨a, rfl⟩ := Int.eq_ofNat_of_zero_le hi0
  obtain ⟨b, rfl⟩ := Int.eq_ofNat_of_zero_le hj0
  by_cases hp : p < 0
  · rw [rowAt_neg _ _ hp, rowAt_neg w p hp]
    have h1 : p ≠ (b : Int) := by omega
    have h2 : p ≠ (a : Int) := by omega
    simp [h1, h2]
  · obtain ⟨n, rfl⟩ := Int.eq_ofNat_of_zero_le (not_lt.mp hp)
    simp only [rowAt_natCast]
    rw [getElem?_SwapRows w a b (by omega) (by omega) (by omega) n]
    simp only [Nat.cast_inj]

/-- Exchanging the same two rows twice gives the table back. -/
theorem SwapRows_SwapRows (w : Table α) (i j : Int) (hi0 : 0 ≤ i) (hi : i < w.length)
    (hj0 : 0 ≤ j) (hj : j < w.length) (hij : i ≠ j) :
    SwapRows (SwapRows w i j) j i = w := by
  apply ext_rowAt
  intro p
  have hl := length_SwapRows w i j
  rw [rowAt_SwapRows _ j i hj0 (by omega) hi0 (by omega) (Ne.symm hij),
    rowAt_SwapRows w i j hi0 hi hj0 hj hij, rowAt_SwapRows w i j hi0 hi hj0 hj hij,
    rowAt_SwapRows w i j hi0 hi hj0 hj hij]
  by_cases h1 : p = i
  · subst h1; simp [hij]
  · by_cases h2 : p = j
    · subst h2; simp [hij, Ne.symm hij]
    · simp [h1, h2]

/-- A list that differs from another one by the exchange of two neighbours is a
permutation of it. -/
theorem perm_of_neighbour_exchange {ρ : Type} :
    ∀ (j : Nat) (w w' : List ρ), j + 1 < w.length →
      (∀ p : Nat, w'[p]? = if p = j then w[j + 1]? else if p = j + 1 then w[j]? else w[p]?) →
      w'.Perm w := by
  intro j
  induction j with
  | zero =>
    intro w w' hlen h
    match w, hlen with
    | a :: b :: rest, _ =>
      have e : w' = b :: a :: rest := by
        apply List.ext_getElem?
        intro p
        rw [h p]
        match p with
        | 0 => simp
        | 1 => simp
        | p + 2 => simp
      rw [e]
      exact List.Perm.swap _ _ _
  | succ j ih =>
    intro w w' hlen h
    match w, hlen, h with
    | a :: tl, hlen, h =>
      have h0 := h 0
      simp at h0
      match w', h0, h with
      | a' :: tl', h0, h =>
        simp at h0
        subst h0
        apply List.Perm.cons
        apply ih tl tl' (by simpa using hlen)
        intro p
        have hp := h (p + 1)
        simpa using hp

/-- Within the table, `SwapRows` on a row and the row above it permutes the rows. -/
theorem SwapRows_perm (w : Table α) (j : Int) (h1 : 1 ≤ j) (h2 : j < w.length) :
    (SwapRows w j (j - 1)).Perm w ∧ (SwapRows w (j - 1) j).Perm w := by
  obtain ⟨n, rfl⟩ := Int.eq_ofNat_of_zero_le (by omega : 0 ≤ j)
  obtain ⟨m, rfl⟩ : ∃ m, n = m + 1 := ⟨n - 1, by omega⟩
  have hc : ((m + 1 : Nat) : Int) - 1 = (m : Int) := by omega
  rw [hc]
  constructor
  · apply perm_of_neighbour_exchange m w _ (by omega)
    intro p
    rw [getElem?_SwapRows w (m + 1) m (by omega) (by omega) (by omega) p]
  · apply perm_of_neighbour_exchange m w _ (by omega)
    intro p
    rw [getElem?_SwapRows w m (m + 1) (by omega) (by omega) (by omega) p]
    by_cases h1 : p = m
    · subst h1; simp
    · by_cases h2 : p = m + 1
      · subst h2; simp
      · simp [h1, h2]

end Swap

/-! ## The inner loops -/

section Loops
variable {α : Type}

theorem length_upLoop (js : List Int) (w : Table α) :
    (js.foldl (fun w j => SwapRows w j (j - 1)) w).length = w.length := by
  induction js generalizing w with
  | nil => rfl
  | cons j js ih => rw [List.foldl_cons, ih, length_SwapRows]

theorem length_downLoop (js : List Int) (w : Table α) :
    (js.foldl (fun w j => SwapRows w j (j + 1)) w).length = w.length := by
  induction js generalizing w with
  | nil => rfl
  | cons j js ih => rw [List.foldl_cons, ih, length_SwapRows]

theorem length_upRange (w : Table α) (r : QTableWidgetSelectionRange) :
    (upRange w r).length = w.length :=
  length_upLoop _ w

theorem length_downRange (w : Table α) (r : QTableWidgetSelectionRange) :
    (downRange w r).length = w.length :=
  length_downLoop _ w

theorem length_foldl_upRange (sel : Selection) (w : Table α) :
    (sel.foldl upRange w).length = w.length := by
  induction sel generalizing w with
  | nil => rfl
  | cons r sel ih => rw [List.foldl_cons, ih, length_upRange]

theorem length_foldl_downRange (sel : Selection) (w : Table α) :
    (sel.foldl downRange w).length = w.length := by
  induction sel generalizing w with
  | nil => rfl
  | cons r sel ih => rw [List.foldl_cons, ih, length_downRange]

theorem mem_upRows (r : QTableWidgetSelectionRange) (j : Int) :
    j ∈ upRows r ↔ r.topRow ≤ j ∧ j ≤ r.bottomRow := by
  unfold upRows QTableWidgetSelectionRange.rowCount
  simp only [List.mem_map, List.mem_range]
  constructor
  · rintro ⟨k, hk, rfl⟩
    omega
  · intro h
    exact ⟨(j - r.topRow).toNat, by omega, by omega⟩

theorem mem_downRows (r : QTableWidgetSelectionRange) (j : Int) :
    j ∈ downRows r ↔ r.topRow ≤ j ∧ j ≤ r.bottomRow := by
  unfold downRows QTableWidgetSelectionRange.rowCount
  simp only [List.mem_map, List.mem_range]
  constructor
  · rintro ⟨k, hk, rfl⟩
    omega
  · intro h
    exact ⟨(r.bottomRow - j).toNat, by omega, by omega⟩

/-- A run of exchanges with the row above, all within the table, permutes the rows. -/
theorem perm_upLoop (js : List Int) (w : Table α)
    (h : ∀ j ∈ js, 1 ≤ j ∧ j < w.length) :
    (js.foldl (fun w j => SwapRows w j (j - 1)) w).Perm w := by
  induction js generalizing w with
  | nil => exact List.Perm.refl _
  | cons j js ih =>
    rw [List.foldl_cons]
    have hj := h j (List.mem_cons_self _ _)
    refine List.Perm.trans (ih _ ?_) (SwapRows_perm w j hj.1 hj.2).1
    intro k hk
    rw [length_SwapRows]
    exact h k (List.mem_cons_of_mem _ hk)

/-- A run of exchanges with the row below, all within the table, permutes the rows. -/
theorem perm_downLoop (js : List Int) (w : Table α)
    (h : ∀ j ∈ js, 0 ≤ j ∧ j + 1 < w.length) :
    (js.foldl (fun w j => SwapRows w j (j + 1)) w).Perm w := by
  induction js generalizing w with
  | nil => exact List.Perm.refl _
  | cons j js ih =>
    rw [List.foldl_cons]
    have hj := h j (List.mem_cons_self _ _)
    have hp := (SwapRows_perm w (j + 1) (by omega) (by omega)).2
    rw [show j + 1 - 1 = j by omega] at hp
    refine List.Perm.trans (ih _ ?_) hp
    intro k hk
    rw [length_SwapRows]
    exact h k (List.mem_cons_of_mem _ hk)

/-- The inner loop of `OnUpClick` on the rows `t .. t + c - 1`: they move up by
one and the row that was above them ends below them. -/
theorem rowAt_upLoop (w : Table α) (t : Int) (c : Nat) (ht : 1 ≤ t)
    (hb : t + c ≤ w.length) (p : Int) :
    rowAt (((List.range c).map fun k : Nat => t + (k : Int)).foldl
        (fun w j => SwapRows w j (j - 1)) w) p =
      if t - 1 ≤ p ∧ p < t - 1 + c then rowAt w (p + 1)
      else if p = t - 1 + c then rowAt w (t - 1)
      else rowAt w p := by
  induction c generalizing p with
  | zero =>
    simp only [List.range_zero, List.map_nil, List.foldl_nil]
    split_ifs with h1 h2
    · omega
    · rw [h2]; simp
    · rfl
  | succ c ih =>
    have ih := ih (by push_cast at hb; omega)
    rw [List.range_succ, List.map_append, List.foldl_append]
    simp only [List.map_cons, List.map_nil, List.foldl_cons, List.foldl_nil]
    have hl := length_upLoop ((List.range c).map fun k : Nat => t + (k : Int)) w
    push_cast at hb
    rw [rowAt_SwapRows _ _ _ (by omega) (by rw [hl]; omega) (by omega) (by rw [hl]; omega)
      (by omega), ih, ih, ih]
    push_cast
    split_ifs <;> first | omega | rfl | (congr 1; omega)

/-- The inner loop of `OnDownClick` on the rows `b - c + 1 .. b`: they move down
by one and the row that was below them ends above them. -/
theorem rowAt_downLoop (w : Table α) (b : Int) (c : Nat) (hc : (c : Int) ≤ b + 1)
    (hb : b + 1 < w.length) (p : Int) :
    rowAt (((List.range c).map fun k : Nat => b - (k : Int)).foldl
        (fun w j => SwapRows w j (j + 1)) w) p =
      if b + 1 - c < p ∧ p ≤ b + 1 then rowAt w (p - 1)
      else if p = b + 1 - c then rowAt w (b + 1)
      else rowAt w p := by
  induction c generalizing p with
  | zero =>
    simp only [List.range_zero, List.map_nil, List.foldl_nil]
    split_ifs with h1 h2
    · omega
    · rw [h2]; simp
    · rfl
  | succ c ih =>
    have ih := ih (by push_cast at hc; omega)
    rw [List.range_succ, List.map_append, List.foldl_append]
    simp only [List.map_cons, List.map_nil, List.foldl_cons, List.foldl_nil]
    have hl := length_downLoop ((List.range c).map fun k : Nat => b - (k : Int)) w
    push_cast at hc
    rw [rowAt_SwapRows _ _ _ (by omega) (by rw [hl]; omega) (by omega) (by rw [hl]; omega)
      (by omega), ih, ih, ih]
    push_cast
    split_ifs <;> first | omega | rfl | (congr 1; omega)

/-- The rows after the inner loop of `OnUpClick` for one range of the table that
does not start on row 0. -/
theorem rowAt_upRange (w : Table α) (r : QTableWidgetSelectionRange)
    (ht : 1 ≤ r.topRow) (hb : r.bottomRow < w.length) (p : Int) :
    rowAt (upRange w r) p =
      if r.topRow - 1 ≤ p ∧ p < r.bottomRow then rowAt w (p + 1)
      else if p = r.bottomRow ∧ r.topRow ≤ r.bottomRow then rowAt w (r.topRow - 1)
      else rowAt w p := by
  unfold upRange upRows
  by_cases hne : r.topRow ≤ r.bottomRow
  · have hc : ((r.rowCount.toNat : Nat) : Int) = r.bottomRow - r.topRow + 1 := by
      unfold QTableWidgetSelectionRange.rowCount; omega
    rw [rowAt_upLoop w r.topRow r.rowCount.toNat ht (by omega) p, hc]
    split_ifs <;> first | omega | rfl
  · have hc : r.rowCount.toNat = 0 := by
      unfold QTableWidgetSelectionRange.rowCount; omega
    rw [hc]
    simp only [List.range_zero, List.map_nil, List.foldl_nil]
    split_ifs <;> first | omega | rfl

/-- The rows after the inner loop of `OnDownClick` for one range of the table that
does not end on the last row. -/
theorem rowAt_downRange (w : Table α) (r : QTableWidgetSelectionRange)
    (ht : 0 ≤ r.topRow) (hb : r.bottomRow + 1 < w.length) (p : Int) :
    rowAt (downRange w r) p =
      if r.topRow < p ∧ p ≤ r.bottomRow + 1 then rowAt w (p - 1)
      else if p = r.topRow ∧ r.topRow ≤ r.bottomRow then rowAt w (r.bottomRow + 1)
      else rowAt w p := by
  unfold downRange downRows
  by_cases hne : r.topRow ≤ r.bottomRow
  · have hc : ((r.rowCount.toNat : Nat) : Int) = r.bottomRow - r.topRow + 1 := by
      unfold QTableWidgetSelectionRange.rowCount; omega
    rw [rowAt_downLoop w r.bottomRow r.rowCount.toNat (by omega) hb p, hc]
    split_ifs <;> first | omega | rfl
  · have hc : r.rowCount.toNat = 0 := by
      unfold QTableWidgetSelectionRange.rowCount; omega
    rw [hc]
    simp only [List.range_zero, List.map_nil, List.foldl_nil]
    split_ifs <;> first | omega | rfl

end Loops

/-! ## Whole selections -/

section Selections
variable {α : Type}

theorem upGuard_eq_true (sel : Selection) :
    upGuard sel = true ↔ ∃ first rest, sel = first :: rest ∧ 0 < first.topRow := by
  cases sel with
  | nil => simp [upGuard]
  | cons a l => simp [upGuard]

theorem downGuard_eq_true (w : Table α) (sel : Selection) :
    downGuard w sel = true ↔
      ∃ last, sel.getLast? = some last ∧ last.bottomRow < rowCount w - 1 := by
  unfold downGuard
  cases h : sel.getLast? with
  | none => simp
  | some l => simp

/-- When the test of `OnUpClick` passes and the ranges ascend by `topRow`, no range
starts on row 0. -/
theorem top_pos_of_upGuard (sel : Selection) (hg : upGuard sel = true)
    (hT : AscendingTop sel) : ∀ r ∈ sel, 1 ≤ r.topRow := by
  obtain ⟨first, rest, rfl, h0⟩ := (upGuard_eq_true sel).mp hg
  intro r hr
  rcases List.mem_cons.mp hr with rfl | hr
  · omega
  · have := (List.pairwise_cons.mp hT).1 r hr
    omega

theorem getLast?_eq_some_append (sel : Selection) (last : QTableWidgetSelectionRange)
    (h : sel.getLast? = some last) : ∃ init, sel = init ++ [last] := by
  induction sel with
  | nil => simp at h
  | cons a l ih =>
    cases l with
    | nil =>
      simp at h
      exact ⟨[], by simp [h]⟩
    | cons b l =>
      rw [List.getLast?_cons_cons] at h
      obtain ⟨init, hinit⟩ := ih h
      exact ⟨a :: init, by rw [hinit]; rfl⟩

/-- When the test of `OnDownClick` passes and the ranges ascend by `bottomRow`, no
range ends on the last row. -/
theorem bottom_lt_of_downGuard (w : Table α) (sel : Selection)
    (hg : downGuard w sel = true) (hB : AscendingBottom sel) :
    ∀ r ∈ sel, r.bottomRow + 1 < w.length := by
  obtain ⟨last, hl, h0⟩ := (downGuard_eq_true w sel).mp hg
  obtain ⟨init, rfl⟩ := getLast?_eq_some_append sel last hl
  unfold rowCount at h0
  intro r hr
  rcases List.mem_append.mp hr with hr | hr
  · have := (List.pairwise_append.mp hB).2.2 r hr last (by simp)
    omega
  · simp at hr
    subst hr
    omega

/-- In a well-formed selection every range ends above the start of the ranges
listed after it. -/
theorem separated_of_wellFormed (sel : Selection) (hne : NonEmptyRanges sel)
    (hno : NonOverlapping sel) (hT : AscendingTop sel) :
    sel.Pairwise fun a b => a.bottomRow < b.topRow := by
  induction sel with
  | nil => exact List.Pairwise.nil
  | cons a l ih =>
    rw [List.pairwise_cons]
    refine ⟨?_, ih (fun r hr => hne r (List.mem_cons_of_mem _ hr))
      (List.pairwise_cons.mp hno).2 (List.pairwise_cons.mp hT).2⟩
    intro b hb
    have h1 := (List.pairwise_cons.mp hno).1 b hb
    have h2 := (List.pairwise_cons.mp hT).1 b hb
    have h3 := hne a (List.mem_cons_self _ _)
    have h4 := hne b (List.mem_cons_of_mem _ hb)
    unfold Overlap at h1
    omega

theorem ascendingBottom_of_separated (sel : Selection) (hne : NonEmptyRanges sel)
    (hs : sel.Pairwise fun a b => a.bottomRow < b.topRow) : AscendingBottom sel := by
  unfold AscendingBottom
  induction sel with
  | nil => exact List.Pairwise.nil
  | cons a l ih =>
    rw [List.pairwise_cons] at hs ⊢
    refine ⟨?_, ih (fun r hr => hne r (List.mem_cons_of_mem _ hr)) hs.2⟩
    intro b hb
    have := hs.1 b hb
    have := hne b (List.mem_cons_of_mem _ hb)
    omega

/-- All ranges in bounds with no range starting on row 0: the loops of `OnUpClick`
permute the rows. -/
theorem perm_foldl_upRange (sel : Selection) (w : Table α)
    (h : ∀ r ∈ sel, 1 ≤ r.topRow ∧ r.bottomRow < w.length) :
    (sel.foldl upRange w).Perm w := by
  induction sel generalizing w with
  | nil => exact List.Perm.refl _
  | cons r sel ih =>
    rw [List.foldl_cons]
    have hr := h r (List.mem_cons_self _ _)
    refine List.Perm.trans (ih _ ?_) (perm_upLoop _ w ?_)
    · intro k hk
      rw [length_upRange]
      exact h k (List.mem_cons_of_mem _ hk)
    · intro j hj
      rw [mem_upRows] at hj
      omega

/-- All ranges in bounds with no range ending on the last row: the loops of
`OnDownClick` permute the rows. -/
theorem perm_foldl_downRange (sel : Selection) (w : Table α)
    (h : ∀ r ∈ sel, 0 ≤ r.topRow ∧ r.bottomRow + 1 < w.length) :
    (sel.foldl downRange w).Perm w := by
  induction sel generalizing w with
  | nil => exact List.Perm.refl _
  | cons r sel ih =>
    rw [List.foldl_cons]
    have hr := h r (List.mem_cons_self _ _)
    refine List.Perm.trans (ih _ ?_) (perm_downLoop _ w ?_)
    · intro k hk
      rw [length_downRange]
      exact h k (List.mem_cons_of_mem _ hk)
    · intro j hj
      rw [mem_downRows] at hj
      omega

end Selections

/-! ## The claims -/

section Claims
variable {α : Type}

/-- C1 (amended): for a table of N rows and a selection whose ranges lie within
`0 .. N - 1` and are listed in ascending order, by `topRow` and by `bottomRow`, the
table left by `OnUpClick` and the table left by `OnDownClick` have N rows and are
permutations of the table before the click. -/
theorem move_permutes_rows (w : Table α) (sel : Selection)
    (hb : InBounds w.length sel) (hT : AscendingTop sel) (hB : AscendingBottom sel) :
    ((OnUpClick w sel).1.length = w.length ∧ (OnUpClick w sel).1.Perm w) ∧
    ((OnDownClick w sel).1.length = w.length ∧ (OnDownClick w sel).1.Perm w) := by
  constructor
  · unfold OnUpClick
    by_cases hg : upGuard sel = true
    · have hp : (sel.foldl upRange w).Perm w := by
        apply perm_foldl_upRange
        intro r hr
        exact ⟨top_pos_of_upGuard sel hg hT r hr, (hb r hr).2.2.2⟩
      simp only [hg, if_true]
      exact ⟨hp.length_eq, hp⟩
    · simp only [hg]
      exact ⟨rfl, List.Perm.refl _⟩
  · unfold OnDownClick
    by_cases hg : downGuard w sel = true
    · have hp : (sel.reverse.foldl downRange w).Perm w := by
        apply perm_foldl_downRange
        intro r hr
        rw [List.mem_reverse] at hr
        exact ⟨(hb r hr).1, bottom_lt_of_downGuard w sel hg hB r hr⟩
      simp only [hg, if_true]
      exact ⟨hp.length_eq, hp⟩
    · simp only [hg]
      exact ⟨rfl, List.Perm.refl _⟩

/-- C1, witness of the amended claim: rows B and D of five rows. -/
theorem move_permutes_rows_witness :
    InBounds abcde.length [rowRange 1 1, rowRange 3 3] ∧
    AscendingTop [rowRange 1 1, rowRange 3 3] ∧
    AscendingBottom [rowRange 1 1, rowRange 3 3] ∧
    (((OnUpClick abcde [rowRange 1 1, rowRange 3 3]).1.length = abcde.length ∧
      (OnUpClick abcde [rowRange 1 1, rowRange 3 3]).1.Perm abcde) ∧
     ((OnDownClick abcde [rowRange 1 1, rowRange 3 3]).1.length = abcde.length ∧
      (OnDownClick abcde [rowRange 1 1, rowRange 3 3]).1.Perm abcde)) :=
  ⟨by decide, by decide, by decide,
    move_permutes_rows abcde [rowRange 1 1, rowRange 3 3] (by decide) (by decide) (by decide)⟩

/-- C1 as stated fails: with the in-bounds ranges (2,2) and (0,0) listed in this
order on three rows, both clicks pass their test and leave a table that has lost a
row, so the result is not a permutation of the three rows. -/
theorem move_permutes_rows_counterexample :
    InBounds abc.length [rowRange 2 2, rowRange 0 0] ∧
    (OnUpClick abc [rowRange 2 2, rowRange 0 0]).1 =
      [{ code := none, name := none }, Row.mk2 "C" "c", Row.mk2 "B" "b"] ∧
    ¬ (OnUpClick abc [rowRange 2 2, rowRange 0 0]).1.Perm abc ∧
    (OnDownClick abc [rowRange 2 2, rowRange 0 0]).1 =
      [Row.mk2 "B" "b", Row.mk2 "A" "a", { code := none, name := none }] ∧
    ¬ (OnDownClick abc [rowRange 2 2, rowRange 0 0]).1.Perm abc := by
  decide

end Claims

section Claims
variable {α : Type}

/-- C3: boundary no-op.  With an empty selection, or with a first range that starts
on row 0, `OnUpClick` returns the table and the selection as given, whatever the
other ranges are; with an empty selection, or with a last range that ends on the
last row, `OnDownClick` returns the table and the selection as given. -/
theorem boundary_noop (w : Table α) (sel : Selection) :
    ((sel = [] ∨ ∃ first rest, sel = first :: rest ∧ first.topRow = 0) →
      OnUpClick w sel = (w, sel)) ∧
    ((sel = [] ∨ ∃ init last, sel = init ++ [last] ∧ last.bottomRow = rowCount w - 1) →
      OnDownClick w sel = (w, sel)) := by
  constructor
  · intro h
    have hg : upGuard sel = false := by
      rcases h with rfl | ⟨first, rest, rfl, h0⟩
      · rfl
      · simp [upGuard, h0]
    simp [OnUpClick, hg]
  · intro h
    have hg : downGuard w sel = false := by
      rcases h with rfl | ⟨init, last, rfl, h0⟩
      · rfl
      · simp [downGuard, h0]
    simp [OnDownClick, hg]

/-- C3, witness: rows A and C selected for the move up, rows C and E for the move
down; the other block would have room to move, and still nothing changes. -/
theorem boundary_noop_witness :
    OnUpClick abcde [rowRange 0 0, rowRange 2 2] = (abcde, [rowRange 0 0, rowRange 2 2]) ∧
    OnDownClick abcde [rowRange 2 2, rowRange 4 4] = (abcde, [rowRange 2 2, rowRange 4 4]) :=
  ⟨(boundary_noop abcde [rowRange 0 0, rowRange 2 2]).1
      (Or.inr ⟨rowRange 0 0, [rowRange 2 2], rfl, rfl⟩),
   (boundary_noop abcde [rowRange 2 2, rowRange 4 4]).2
      (Or.inr ⟨[rowRange 2 2], rowRange 4 4, rfl, by decide⟩)⟩

/-- C9: range shift.  When the test of the click passes, the selection left behind
has as many ranges as before, in the same order; the i-th one has `topRow` and
`bottomRow` one less (`OnUpClick`) or one more (`OnDownClick`) than the i-th range
before, the same `rowCount`, and the same `leftColumn` and `rightColumn`. -/
theorem selection_shifted (w : Table α) (sel : Selection) :
    (upGuard sel = true →
      (OnUpClick w sel).2.length = sel.length ∧
      ∀ (i : Nat) (r : QTableWidgetSelectionRange), sel[i]? = some r →
        ∃ r', (OnUpClick w sel).2[i]? = some r' ∧
          r'.topRow = r.topRow - 1 ∧ r'.bottomRow = r.bottomRow - 1 ∧
          r'.rowCount = r.rowCount ∧
          r'.leftColumn = r.leftColumn ∧ r'.rightColumn = r.rightColumn) ∧
    (downGuard w sel = true →
      (OnDownClick w sel).2.length = sel.length ∧
      ∀ (i : Nat) (r : QTableWidgetSelectionRange), sel[i]? = some r →
        ∃ r', (OnDownClick w sel).2[i]? = some r' ∧
          r'.topRow = r.topRow + 1 ∧ r'.bottomRow = r.bottomRow + 1 ∧
          r'.rowCount = r.rowCount ∧
          r'.leftColumn = r.leftColumn ∧ r'.rightColumn = r.rightColumn) := by
  constructor
  · intro hg
    simp only [OnUpClick, hg, if_true, ShiftSelectionRange, List.length_map, true_and]
    intro i r hi
    refine ⟨⟨r.topRow + -1, r.leftColumn, r.bottomRow + -1, r.rightColumn⟩,
      by rw [List.getElem?_map, hi]; rfl, ?_, ?_, ?_, rfl, rfl⟩
    · show r.topRow + -1 = r.topRow - 1
      omega
    · show r.bottomRow + -1 = r.bottomRow - 1
      omega
    · show r.bottomRow + -1 - (r.topRow + -1) + 1 = r.bottomRow - r.topRow + 1
      omega
  · intro hg
    simp only [OnDownClick, hg, if_true, ShiftSelectionRange, List.length_map, true_and]
    intro i r hi
    refine ⟨⟨r.topRow + 1, r.leftColumn, r.bottomRow + 1, r.rightColumn⟩,
      by rw [List.getElem?_map, hi]; rfl, rfl, rfl, ?_, rfl, rfl⟩
    show r.bottomRow + 1 - (r.topRow + 1) + 1 = r.bottomRow - r.topRow + 1
    omega

/-- C9, witness: two blocks in the middle of five rows, both tests pass. -/
theorem selection_shifted_witness :
    upGuard [rowRange 1 1, rowRange 3 3] = true ∧
    downGuard abcde [rowRange 1 1, rowRange 3 3] = true ∧
    (OnUpClick abcde [rowRange 1 1, rowRange 3 3]).2.length = 2 ∧
    (OnDownClick abcde [rowRange 1 1, rowRange 3 3]).2.length = 2 :=
  ⟨by decide, by decide,
   ((selection_shifted abcde [rowRange 1 1, rowRange 3 3]).1 (by decide)).1,
   ((selection_shifted abcde [rowRange 1 1, rowRange 3 3]).2 (by decide)).1⟩

theorem inBounds_shift (n : Nat) (sel : Selection) (d : Int)
    (h : ∀ r ∈ sel, 0 ≤ r.topRow + d ∧ r.topRow + d < n ∧
      0 ≤ r.bottomRow + d ∧ r.bottomRow + d < n) :
    InBounds n (ShiftSelectionRange sel d) := by
  intro r hr
  unfold ShiftSelectionRange at hr
  rw [List.mem_map] at hr
  obtain ⟨r0, hr0, rfl⟩ := hr
  exact h r0 hr0

theorem nonEmptyRanges_shift (sel : Selection) (d : Int) (h : NonEmptyRanges sel) :
    NonEmptyRanges (ShiftSelectionRange sel d) := by
  intro r hr
  unfold ShiftSelectionRange at hr
  rw [List.mem_map] at hr
  obtain ⟨r0, hr0, rfl⟩ := hr
  have := h r0 hr0
  show r0.topRow + d ≤ r0.bottomRow + d
  omega

theorem nonOverlapping_shift (sel : Selection) (d : Int) (h : NonOverlapping sel) :
    NonOverlapping (ShiftSelectionRange sel d) := by
  unfold NonOverlapping ShiftSelectionRange
  rw [List.pairwise_map]
  refine h.imp ?_
  intro a b hab
  unfold Overlap at hab ⊢
  simp only
  omega

theorem ascendingTop_shift (sel : Selection) (d : Int) (h : AscendingTop sel) :
    AscendingTop (ShiftSelectionRange sel d) := by
  unfold AscendingTop ShiftSelectionRange
  rw [List.pairwise_map]
  refine h.imp ?_
  intro a b hab
  simp only
  omega

/-- C10: invariant I1 is kept.  For a table of N rows and a selection whose ranges
(each of at least one row, as the data model has them) lie within `0 .. N - 1`, do
not overlap and ascend by `topRow`, the selection left by `OnUpClick` and the one
left by `OnDownClick` again have all ranges within `0 .. N - 1`, of at least one
row, not overlapping and ascending by `topRow`. -/
theorem wellFormed_kept (w : Table α) (sel : Selection)
    (hb : InBounds w.length sel) (hne : NonEmptyRanges sel)
    (hno : NonOverlapping sel) (hT : AscendingTop sel) :
    (InBounds w.length (OnUpClick w sel).2 ∧ NonEmptyRanges (OnUpClick w sel).2 ∧
      NonOverlapping (OnUpClick w sel).2 ∧ AscendingTop (OnUpClick w sel).2) ∧
    (InBounds w.length (OnDownClick w sel).2 ∧ NonEmptyRanges (OnDownClick w sel).2 ∧
      NonOverlapping (OnDownClick w sel).2 ∧ AscendingTop (OnDownClick w sel).2) := by
  constructor
  · unfold OnUpClick
    by_cases hg : upGuard sel = true
    · simp only [hg, if_true]
      refine ⟨inBounds_shift _ _ _ ?_, nonEmptyRanges_shift _ _ hne,
        nonOverlapping_shift _ _ hno, ascendingTop_shift _ _ hT⟩
      intro r hr
      have h1 := top_pos_of_upGuard sel hg hT r hr
      have h2 := hb r hr
      have h3 := hne r hr
      omega
    · simp only [hg]
      exact ⟨hb, hne, hno, hT⟩
  · unfold OnDownClick
    by_cases hg : downGuard w sel = true
    · simp only [hg, if_true]
      refine ⟨inBounds_shift _ _ _ ?_, nonEmptyRanges_shift _ _ hne,
        nonOverlapping_shift _ _ hno, ascendingTop_shift _ _ hT⟩
      intro r hr
      have h1 := bottom_lt_of_downGuard w sel hg
        (ascendingBottom_of_separated sel hne (separated_of_wellFormed sel hne hno hT)) r hr
      have h2 := hb r hr
      have h3 := hne r hr
      omega
    · simp only [hg]
      exact ⟨hb, hne, hno, hT⟩

/-- C10, witness: rows B and D..E of five rows. -/
theorem wellFormed_kept_witness :
    InBounds abcde.length [rowRange 1 1, rowRange 3 4] ∧
    NonEmptyRanges [rowRange 1 1, rowRange 3 4] ∧
    NonOverlapping [rowRange 1 1, rowRange 3 4] ∧
    AscendingTop [rowRange 1 1, rowRange 3 4] ∧
    (OnUpClick abcde [rowRange 1 1, rowRange 3 4]).2 = [rowRange 0 0, rowRange 2 3] ∧
    WellFormed abcde.length (OnUpClick abcde [rowRange 1 1, rowRange 3 4]).2 :=
  ⟨by decide, by decide, by decide, by decide, by decide,
    (wellFormed_kept abcde [rowRange 1 1, rowRange 3 4]
      (by decide) (by decide) (by decide) (by decide)).1⟩

end Claims

/-! ## Undoing a click -/

section RoundTrip
variable {α : Type}

theorem foldl_upRange_eq (sel : Selection) (w : Table α) :
    sel.foldl upRange w = (sel.flatMap upRows).foldl (fun w j => SwapRows w j (j - 1)) w := by
  induction sel generalizing w with
  | nil => rfl
  | cons r sel ih =>
    rw [List.foldl_cons, List.flatMap_cons, List.foldl_append, ih]
    rfl

theorem foldl_downRange_eq (sel : Selection) (w : Table α) :
    sel.foldl downRange w =
      (sel.flatMap downRows).foldl (fun w j => SwapRows w j (j + 1)) w := by
  induction sel generalizing w with
  | nil => rfl
  | cons r sel ih =>
    rw [List.foldl_cons, List.flatMap_cons, List.foldl_append, ih]
    rfl

/-- Counting up from `t` and reading backwards is counting down from `t + c - 1`. -/
theorem reverse_countUp (c : Nat) (t : Int) :
    ((List.range c).map fun (k : Nat) => t + (k : Int)).reverse =
      (List.range c).map fun (k : Nat) => t + (c : Int) - 1 - (k : Int) := by
  induction c with
  | zero => rfl
  | succ c ih =>
    conv => lhs; rw [List.range_succ, List.map_append, List.reverse_append, ih]
    conv => rhs; rw [List.range_succ_eq_map]
    simp only [List.map_cons, List.map_nil, List.reverse_cons, List.reverse_nil, List.nil_append,
      List.singleton_append, List.map_map, List.cons.injEq]
    constructor
    · push_cast; omega
    · apply List.map_congr_left
      intro k _
      simp only [Function.comp, Nat.succ_eq_add_one]
      push_cast
      omega

/-- Counting down from `b` and reading backwards is counting up from `b - c + 1`. -/
theorem reverse_countDown (c : Nat) (b : Int) :
    ((List.range c).map fun (k : Nat) => b - (k : Int)).reverse =
      (List.range c).map fun (k : Nat) => b - (c : Int) + 1 + (k : Int) := by
  rw [← List.reverse_reverse ((List.range c).map fun (k : Nat) => b - (c : Int) + 1 + (k : Int)),
    reverse_countUp]
  congr 1
  apply List.map_congr_left
  intro k _
  omega

theorem downRows_shift_up (r : QTableWidgetSelectionRange) :
    downRows ⟨r.topRow + -1, r.leftColumn, r.bottomRow + -1, r.rightColumn⟩ =
      (upRows r).reverse.map fun j => j - 1 := by
  unfold downRows upRows QTableWidgetSelectionRange.rowCount
  simp only
  rw [reverse_countUp, List.map_map,
    show r.bottomRow + -1 - (r.topRow + -1) + 1 = r.bottomRow - r.topRow + 1 by omega]
  apply List.map_congr_left
  intro k hk
  rw [List.mem_range] at hk
  simp only [Function.comp]
  omega

theorem upRows_shift_down (r : QTableWidgetSelectionRange) :
    upRows ⟨r.topRow + 1, r.leftColumn, r.bottomRow + 1, r.rightColumn⟩ =
      (downRows r).reverse.map fun j => j + 1 := by
  unfold downRows upRows QTableWidgetSelectionRange.rowCount
  simp only
  rw [reverse_countDown, List.map_map,
    show r.bottomRow + 1 - (r.topRow + 1) + 1 = r.bottomRow - r.topRow + 1 by omega]
  apply List.map_congr_left
  intro k hk
  rw [List.mem_range] at hk
  simp only [Function.comp]
  omega

/-- The values of `j` met by `OnDownClick` on the selection left by `OnUpClick` are
those met by `OnUpClick`, in reverse order and one less. -/
theorem downRows_after_up (sel : Selection) :
    (ShiftSelectionRange sel (-1)).reverse.flatMap downRows =
      (sel.flatMap upRows).reverse.map fun j => j - 1 := by
  induction sel with
  | nil => rfl
  | cons r sel ih =>
    have e : ShiftSelectionRange (r :: sel) (-1) =
        ⟨r.topRow + -1, r.leftColumn, r.bottomRow + -1, r.rightColumn⟩ ::
          ShiftSelectionRange sel (-1) := rfl
    rw [e, List.reverse_cons, List.flatMap_append, List.flatMap_singleton, ih,
      List.flatMap_cons, List.reverse_append, List.map_append, downRows_shift_up]

/-- The values of `j` met by `OnUpClick` on the selection left by `OnDownClick` are
those met by `OnDownClick`, in reverse order and one more. -/
theorem upRows_after_down (sel : Selection) :
    (ShiftSelectionRange sel 1).flatMap upRows =
      (sel.reverse.flatMap downRows).reverse.map fun j => j + 1 := by
  induction sel with
  | nil => rfl
  | cons r sel ih =>
    have e : ShiftSelectionRange (r :: sel) 1 =
        ⟨r.topRow + 1, r.leftColumn, r.bottomRow + 1, r.rightColumn⟩ ::
          ShiftSelectionRange sel 1 := rfl
    rw [e, List.flatMap_cons, ih, List.reverse_cons, List.flatMap_append,
      List.flatMap_singleton, List.reverse_append, List.map_append, upRows_shift_down]

/-- Exchanges with the row above, undone in reverse order from the row above. -/
theorem undo_upLoop (js : List Int) (w : Table α)
    (h : ∀ j ∈ js, 1 ≤ j ∧ j < w.length) :
    (js.reverse.map fun j => j - 1).foldl (fun w j => SwapRows w j (j + 1))
      (js.foldl (fun w j => SwapRows w j (j - 1)) w) = w := by
  induction js generalizing w with
  | nil => rfl
  | cons j js ih =>
    have hj := h j (List.mem_cons_self _ _)
    rw [List.foldl_cons, List.reverse_cons, List.map_append, List.foldl_append, ih]
    · simp only [List.map_cons, List.map_nil, List.foldl_cons, List.foldl_nil]
      rw [show j - 1 + 1 = j by omega]
      exact SwapRows_SwapRows w j (j - 1) (by omega) hj.2 (by omega) (by omega) (by omega)
    · intro k hk
      rw [length_SwapRows]
      exact h k (List.mem_cons_of_mem _ hk)

/-- Exchanges with the row below, undone in reverse order from the row below. -/
theorem undo_downLoop (js : List Int) (w : Table α)
    (h : ∀ j ∈ js, 0 ≤ j ∧ j + 1 < w.length) :
    (js.reverse.map fun j => j + 1).foldl (fun w j => SwapRows w j (j - 1))
      (js.foldl (fun w j => SwapRows w j (j + 1)) w) = w := by
  induction js generalizing w with
  | nil => rfl
  | cons j js ih =>
    have hj := h j (List.mem_cons_self _ _)
    rw [List.foldl_cons, List.reverse_cons, List.map_append, List.foldl_append, ih]
    · simp only [List.map_cons, List.map_nil, List.foldl_cons, List.foldl_nil]
      rw [show j + 1 - 1 = j by omega]
      exact SwapRows_SwapRows w j (j + 1) (by omega) (by omega) (by omega) hj.2 (by omega)
    · intro k hk
      rw [length_SwapRows]
      exact h k (List.mem_cons_of_mem _ hk)

theorem shift_shift (sel : Selection) (d e : Int) (h : d + e = 0) :
    ShiftSelectionRange (ShiftSelectionRange sel d) e = sel := by
  unfold ShiftSelectionRange
  rw [List.map_map]
  conv => rhs; rw [← List.map_id sel]
  apply List.map_congr_left
  intro r _
  cases r with
  | mk t l b rc =>
    simp only [Function.comp, id, QTableWidgetSelectionRange.mk.injEq, and_true, true_and]
    constructor <;> omega

theorem shift_ne (sel : Selection) (d : Int) (hd : d ≠ 0) (hs : sel ≠ []) :
    ShiftSelectionRange sel d ≠ sel := by
  cases sel with
  | nil => exact absurd rfl hs
  | cons r sel =>
    intro h
    have e : ShiftSelectionRange (r :: sel) d =
        ⟨r.topRow + d, r.leftColumn, r.bottomRow + d, r.rightColumn⟩ ::
          ShiftSelectionRange sel d := rfl
    rw [e] at h
    have h1 := congrArg QTableWidgetSelectionRange.topRow (List.cons.inj h).1
    simp only at h1
    omega

theorem getLast?_shift (sel : Selection) (d : Int) :
    (ShiftSelectionRange sel d).getLast? =
      sel.getLast?.map fun r => ⟨r.topRow + d, r.leftColumn, r.bottomRow + d, r.rightColumn⟩ := by
  unfold ShiftSelectionRange
  rw [List.getLast?_map]

/-- Slot `OnDownClick` undoes `OnUpClick` whenever the loops of `OnUpClick` stay within
the table. -/
theorem down_after_up (w : Table α) (sel : Selection) (hg : upGuard sel = true)
    (h : ∀ r ∈ sel, 1 ≤ r.topRow ∧ r.bottomRow < w.length) :
    downGuard (sel.foldl upRange w) (ShiftSelectionRange sel (-1)) = true ∧
    OnDownClick (sel.foldl upRange w) (ShiftSelectionRange sel (-1)) = (w, sel) := by
  have hgd : downGuard (sel.foldl upRange w) (ShiftSelectionRange sel (-1)) = true := by
    rw [downGuard_eq_true, getLast?_shift]
    obtain ⟨first, rest, rfl, -⟩ := (upGuard_eq_true sel).mp hg
    obtain ⟨last, hlast⟩ : ∃ last, (first :: rest).getLast? = some last :=
      ⟨_, List.getLast?_eq_getLast _ (List.cons_ne_nil _ _)⟩
    have hmem := List.mem_of_getLast?_eq_some hlast
    refine ⟨_, by rw [hlast]; rfl, ?_⟩
    have := (h last hmem).2
    simp only [rowCount, length_foldl_upRange]
    omega
  refine ⟨hgd, ?_⟩
  unfold OnDownClick
  simp only [hgd, if_true]
  rw [shift_shift sel (-1) 1 (by omega), foldl_downRange_eq, downRows_after_up,
    foldl_upRange_eq, undo_upLoop]
  intro j hj
  rw [List.mem_flatMap] at hj
  obtain ⟨r, hr, hj⟩ := hj
  rw [mem_upRows] at hj
  have := h r hr
  omega

/-- Slot `OnUpClick` undoes `OnDownClick` whenever the loops of `OnDownClick` stay within
the table. -/
theorem up_after_down (w : Table α) (sel : Selection) (hg : downGuard w sel = true)
    (h : ∀ r ∈ sel, 0 ≤ r.topRow ∧ r.bottomRow + 1 < w.length) :
    upGuard (ShiftSelectionRange sel 1) = true ∧
    OnUpClick (sel.reverse.foldl downRange w) (ShiftSelectionRange sel 1) = (w, sel) := by
  have hgu : upGuard (ShiftSelectionRange sel 1) = true := by
    obtain ⟨last, hl, -⟩ := (downGuard_eq_true w sel).mp hg
    cases sel with
    | nil => simp at hl
    | cons first rest =>
      have := (h first (List.mem_cons_self _ _)).1
      simp only [ShiftSelectionRange, List.map_cons, upGuard, decide_eq_true_eq]
      omega
  refine ⟨hgu, ?_⟩
  unfold OnUpClick
  simp only [hgu, if_true]
  rw [shift_shift sel 1 (-1) (by omega), foldl_upRange_eq, upRows_after_down,
    foldl_downRange_eq, undo_downLoop]
  intro j hj
  rw [List.mem_flatMap] at hj
  obtain ⟨r, hr, hj⟩ := hj
  rw [mem_downRows] at hj
  have := h r (List.mem_reverse.mp hr)
  omega

end RoundTrip

/-! ## Where the rows end up -/

section Positions
variable {α : Type}

theorem selected_nil (p : Int) : ¬ Selected [] p := by
  simp [Selected]

theorem selected_cons (r : QTableWidgetSelectionRange) (sel : Selection) (p : Int) :
    Selected (r :: sel) p ↔ (r.topRow ≤ p ∧ p ≤ r.bottomRow) ∨ Selected sel p := by
  simp [Selected]

/-- Slot `OnUpClick` leaves alone every row that is neither in a range nor right above one. -/
theorem rowAt_foldl_upRange_of_untouched (sel : Selection) (w : Table α)
    (hb : ∀ r ∈ sel, 1 ≤ r.topRow ∧ r.bottomRow < w.length) (p : Int)
    (hp : ∀ r ∈ sel, p < r.topRow - 1 ∨ r.bottomRow < p) :
    rowAt (sel.foldl upRange w) p = rowAt w p := by
  induction sel generalizing w with
  | nil => rfl
  | cons r sel ih =>
    have hr := hb r (List.mem_cons_self _ _)
    have hpr := hp r (List.mem_cons_self _ _)
    rw [List.foldl_cons, ih, rowAt_upRange w r hr.1 hr.2]
    · split_ifs <;> first | omega | rfl
    · intro k hk
      rw [length_upRange]
      exact hb k (List.mem_cons_of_mem _ hk)
    · intro k hk
      exact hp k (List.mem_cons_of_mem _ hk)

/-- Slot `OnDownClick` leaves alone every row that is neither in a range nor right below one. -/
theorem rowAt_foldl_downRange_of_untouched (sel : Selection) (w : Table α)
    (hb : ∀ r ∈ sel, 0 ≤ r.topRow ∧ r.bottomRow + 1 < w.length) (p : Int)
    (hp : ∀ r ∈ sel, p < r.topRow ∨ r.bottomRow + 1 < p) :
    rowAt (sel.reverse.foldl downRange w) p = rowAt w p := by
  induction sel with
  | nil => rfl
  | cons r sel ih =>
    have hr := hb r (List.mem_cons_self _ _)
    have hpr := hp r (List.mem_cons_self _ _)
    simp only [List.reverse_cons, List.foldl_append, List.foldl_cons, List.foldl_nil]
    rw [rowAt_downRange _ r hr.1 (by rw [length_foldl_downRange]; exact hr.2)]
    have ih := ih (fun k hk => hb k (List.mem_cons_of_mem _ hk))
      (fun k hk => hp k (List.mem_cons_of_mem _ hk))
    split_ifs <;> first | omega | exact ih

/-- Every selected row is one index higher up after the loops of `OnUpClick`. -/
theorem rowAt_foldl_upRange_of_selected (sel : Selection) (w : Table α)
    (hb : ∀ r ∈ sel, 1 ≤ r.topRow ∧ r.bottomRow < w.length)
    (hs : sel.Pairwise fun a b => a.bottomRow < b.topRow)
    (r : QTableWidgetSelectionRange) (hr : r ∈ sel) (p : Int)
    (hp : r.topRow ≤ p ∧ p ≤ r.bottomRow) :
    rowAt (sel.foldl upRange w) (p - 1) = rowAt w p := by
  induction sel generalizing w with
  | nil => simp at hr
  | cons r0 sel ih =>
    have hr0 := hb r0 (List.mem_cons_self _ _)
    have hsep := (List.pairwise_cons.mp hs).1
    have hb' : ∀ k ∈ sel, 1 ≤ k.topRow ∧ k.bottomRow < (upRange w r0).length := by
      intro k hk
      rw [length_upRange]
      exact hb k (List.mem_cons_of_mem _ hk)
    rw [List.foldl_cons]
    rcases List.mem_cons.mp hr with rfl | hr
    · rw [rowAt_foldl_upRange_of_untouched sel _ hb', rowAt_upRange w r hr0.1 hr0.2]
      · rw [if_pos (by omega), show p - 1 + 1 = p by omega]
      · intro k hk
        have := hsep k hk
        omega
    · rw [ih _ hb' (List.pairwise_cons.mp hs).2 hr, rowAt_upRange w r0 hr0.1 hr0.2]
      have := hsep r hr
      split_ifs <;> first | omega | rfl

/-- Every selected row is one index further down after the loops of `OnDownClick`. -/
theorem rowAt_foldl_downRange_of_selected (sel : Selection) (w : Table α)
    (hb : ∀ r ∈ sel, 0 ≤ r.topRow ∧ r.bottomRow + 1 < w.length)
    (hs : sel.Pairwise fun a b => a.bottomRow < b.topRow)
    (r : QTableWidgetSelectionRange) (hr : r ∈ sel) (p : Int)
    (hp : r.topRow ≤ p ∧ p ≤ r.bottomRow) :
    rowAt (sel.reverse.foldl downRange w) (p + 1) = rowAt w p := by
  induction sel with
  | nil => simp at hr
  | cons r0 sel ih =>
    have hr0 := hb r0 (List.mem_cons_self _ _)
    have hsep := (List.pairwise_cons.mp hs).1
    have hb' : ∀ k ∈ sel, 0 ≤ k.topRow ∧ k.bottomRow + 1 < w.length :=
      fun k hk => hb k (List.mem_cons_of_mem _ hk)
    simp only [List.reverse_cons, List.foldl_append, List.foldl_cons, List.foldl_nil]
    rw [rowAt_downRange _ r0 hr0.1 (by rw [length_foldl_downRange]; exact hr0.2)]
    rcases List.mem_cons.mp hr with rfl | hr
    · rw [if_pos (by omega), show p + 1 - 1 = p by omega]
      apply rowAt_foldl_downRange_of_untouched sel w hb'
      intro k hk
      have := hsep k hk
      omega
    · have := hsep r hr
      have ih := ih hb' (List.pairwise_cons.mp hs).2 hr
      split_ifs <;> first | omega | exact ih

/-- A row that is not selected and has exactly `m` selected rows right below it ends
`m` indices further down after the loops of `OnUpClick`. -/
theorem rowAt_foldl_upRange_of_run (sel : Selection) (w : Table α)
    (hb : ∀ r ∈ sel, 1 ≤ r.topRow ∧ r.bottomRow < w.length)
    (hne : NonEmptyRanges sel)
    (hs : sel.Pairwise fun a b => a.bottomRow < b.topRow)
    (q m : Int) (hm : 0 ≤ m) (hq : ¬ Selected sel q)
    (hrun : ∀ k, q < k → k ≤ q + m → Selected sel k)
    (hend : ¬ Selected sel (q + m + 1)) :
    rowAt (sel.foldl upRange w) (q + m) = rowAt w q := by
  induction sel generalizing w q m with
  | nil =>
    have : m = 0 := by
      by_contra h
      exact selected_nil _ (hrun (q + 1) (by omega) (by omega))
    subst this
    simp
  | cons r sel ih =>
    have hr := hb r (List.mem_cons_self _ _)
    have hner := hne r (List.mem_cons_self _ _)
    have hsep := (List.pairwise_cons.mp hs).1
    have hb' : ∀ k ∈ sel, 1 ≤ k.topRow ∧ k.bottomRow < (upRange w r).length := by
      intro k hk
      rw [length_upRange]
      exact hb k (List.mem_cons_of_mem _ hk)
    have hne' : NonEmptyRanges sel := fun k hk => hne k (List.mem_cons_of_mem _ hk)
    have hs' := (List.pairwise_cons.mp hs).2
    have below : ∀ k, k ≤ r.bottomRow → ¬ Selected sel k := by
      rintro k hk ⟨r', hr', h1, h2⟩
      have := hsep r' hr'
      omega
    rw [selected_cons] at hq hend
    have hq1 : ¬ (r.topRow ≤ q ∧ q ≤ r.bottomRow) := fun h => hq (Or.inl h)
    have hq2 : ¬ Selected sel q := fun h => hq (Or.inr h)
    have hend1 : ¬ (r.topRow ≤ q + m + 1 ∧ q + m + 1 ≤ r.bottomRow) := fun h => hend (Or.inl h)
    have hend2 : ¬ Selected sel (q + m + 1) := fun h => hend (Or.inr h)
    rw [List.foldl_cons]
    by_cases c1 : q < r.topRow - 1
    · -- the row lies above the whole selection
      have hm0 : m = 0 := by
        by_contra h
        have := hrun (q + 1) (by omega) (by omega)
        rw [selected_cons] at this
        rcases this with h1 | h1
        · omega
        · exact below _ (by omega) h1
      subst hm0
      rw [add_zero, rowAt_foldl_upRange_of_untouched sel _ hb', rowAt_upRange w r hr.1 hr.2]
      · split_ifs <;> first | omega | rfl
      · intro k hk
        have := hsep k hk
        omega
    · by_cases c2 : q = r.topRow - 1
      · -- the row right above the first range
        have hge : r.bottomRow ≤ q + m := by omega
        have e : q + m = r.bottomRow + (q + m - r.bottomRow) := by omega
        rw [e, ih _ hb' hne' hs' r.bottomRow (q + m - r.bottomRow) (by omega)
          (below _ (le_refl _)), rowAt_upRange w r hr.1 hr.2]
        · rw [if_neg (by omega), if_pos ⟨rfl, hner⟩, c2]
        · intro k hk1 hk2
          have := hrun k (by omega) (by omega)
          rw [selected_cons] at this
          rcases this with h1 | h1
          · omega
          · exact h1
        · rw [show r.bottomRow + (q + m - r.bottomRow) + 1 = q + m + 1 by omega]
          exact hend2
      · -- the row lies below the first range
        have c3 : r.bottomRow < q := by omega
        rw [ih _ hb' hne' hs' q m hm hq2, rowAt_upRange w r hr.1 hr.2]
        · split_ifs <;> first | omega | rfl
        · intro k hk1 hk2
          have := hrun k hk1 hk2
          rw [selected_cons] at this
          rcases this with h1 | h1
          · omega
          · exact h1
        · exact hend2

/-- A row that is not selected and has exactly `m` selected rows right above it ends
`m` indices higher up after the loops of `OnDownClick`. -/
theorem rowAt_foldl_downRange_of_run (sel : Selection) (w : Table α)
    (hb : ∀ r ∈ sel, 0 ≤ r.topRow ∧ r.bottomRow + 1 < w.length)
    (hne : NonEmptyRanges sel)
    (hs : sel.Pairwise fun a b => a.bottomRow < b.topRow)
    (q m : Int) (hm : 0 ≤ m) (hq : ¬ Selected sel q)
    (hrun : ∀ k, q - m ≤ k → k < q → Selected sel k)
    (hend : ¬ Selected sel (q - m - 1)) :
    rowAt (sel.reverse.foldl downRange w) (q - m) = rowAt w q := by
  induction sel generalizing q m with
  | nil =>
    have : m = 0 := by
      by_contra h
      exact selected_nil _ (hrun (q - 1) (by omega) (by omega))
    subst this
    simp
  | cons r sel ih =>
    have hr := hb r (List.mem_cons_self _ _)
    have hner := hne r (List.mem_cons_self _ _)
    have hsep := (List.pairwise_cons.mp hs).1
    have hb' : ∀ k ∈ sel, 0 ≤ k.topRow ∧ k.bottomRow + 1 < w.length :=
      fun k hk => hb k (List.mem_cons_of_mem _ hk)
    have hne' : NonEmptyRanges sel := fun k hk => hne k (List.mem_cons_of_mem _ hk)
    have hs' := (List.pairwise_cons.mp hs).2
    have below : ∀ k, k ≤ r.bottomRow → ¬ Selected sel k := by
      rintro k hk ⟨r', hr', h1, h2⟩
      have := hsep r' hr'
      omega
    rw [selected_cons] at hq hend
    have hq1 : ¬ (r.topRow ≤ q ∧ q ≤ r.bottomRow) := fun h => hq (Or.inl h)
    have hq2 : ¬ Selected sel q := fun h => hq (Or.inr h)
    have hend1 : ¬ (r.topRow ≤ q - m - 1 ∧ q - m - 1 ≤ r.bottomRow) :=
      fun h => hend (Or.inl h)
    have hend2 : ¬ Selected sel (q - m - 1) := fun h => hend (Or.inr h)
    have hfirst : m = 0 ∨ (r.topRow ≤ q - m ∧ q - m ≤ r.bottomRow) ∨ Selected sel (q - m) := by
      by_cases h : m = 0
      · exact Or.inl h
      · have := hrun (q - m) (le_refl _) (by omega)
        rw [selected_cons] at this
        exact Or.inr this
    simp only [List.reverse_cons, List.foldl_append, List.foldl_cons, List.foldl_nil]
    rw [rowAt_downRange _ r hr.1 (by rw [length_foldl_downRange]; exact hr.2)]
    by_cases c1 : q < r.topRow
    · -- the row lies above the whole selection
      have hm0 : m = 0 := by
        rcases hfirst with h | h | h
        · exact h
        · omega
        · exact absurd h (below _ (by omega))
      subst hm0
      rw [sub_zero, if_neg (by omega), if_neg (by omega)]
      apply rowAt_foldl_downRange_of_untouched sel w hb'
      intro k hk
      have := hsep k hk
      omega
    · have c2 : r.bottomRow < q := by omega
      by_cases c3 : r.bottomRow + 1 < q - m
      · -- the run ends below the first range
        rw [if_neg (by omega), if_neg (by omega)]
        apply ih hb' hne' hs' q m hm hq2 _ hend2
        intro k hk1 hk2
        have := hrun k hk1 hk2
        rw [selected_cons] at this
        rcases this with h1 | h1
        · omega
        · exact h1
      · -- the run reaches the first range and so covers it
        have hmpos : m ≠ 0 := by
          intro h
          subst h
          have : q = r.bottomRow + 1 := by omega
          exact hend1 (by omega)
        have htop : q - m = r.topRow := by
          rcases hfirst with h | h | h
          · exact absurd h hmpos
          · by_contra hc
            exact hend1 (by omega)
          · by_cases h4 : q - m ≤ r.bottomRow
            · exact absurd h (below _ h4)
            · exact absurd ⟨by omega, by omega⟩ hend1
        rw [htop, if_neg (by omega), if_pos ⟨rfl, hner⟩]
        have := ih hb' hne' hs' q (q - (r.bottomRow + 1)) (by omega) hq2 (by
          intro k hk1 hk2
          have := hrun k (by omega) hk2
          rw [selected_cons] at this
          rcases this with h1 | h1
          · omega
          · exact h1) (by
          rw [show q - (q - (r.bottomRow + 1)) - 1 = r.bottomRow by omega]
          exact below _ (le_refl _))
        rw [show q - (q - (r.bottomRow + 1)) = r.bottomRow + 1 by omega] at this
        exact this

end Positions

section Claims
variable {α : Type}

theorem up_bounds_of_wellFormed (w : Table α) (sel : Selection)
    (hwf : WellFormed w.length sel) (hg : upGuard sel = true) :
    ∀ r ∈ sel, 1 ≤ r.topRow ∧ r.bottomRow < w.length :=
  fun r hr => ⟨top_pos_of_upGuard sel hg hwf.2.2.2 r hr, (hwf.1 r hr).2.2.2⟩

theorem down_bounds_of_wellFormed (w : Table α) (sel : Selection)
    (hwf : WellFormed w.length sel) (hg : downGuard w sel = true) :
    ∀ r ∈ sel, 0 ≤ r.topRow ∧ r.bottomRow + 1 < w.length :=
  fun r hr => ⟨(hwf.1 r hr).1, bottom_lt_of_downGuard w sel hg
    (ascendingBottom_of_separated sel hwf.2.1
      (separated_of_wellFormed sel hwf.2.1 hwf.2.2.1 hwf.2.2.2)) r hr⟩

theorem rowAt_eq_some (w : Table α) (p : Int) (h0 : 0 ≤ p) (h1 : p < w.length) :
    ∃ row, rowAt w p = some row := by
  obtain ⟨n, rfl⟩ := Int.eq_ofNat_of_zero_le h0
  have hn : n < w.length := by omega
  exact ⟨w[n], by rw [rowAt_natCast, List.getElem?_eq_getElem hn]⟩

/-- C4: round trip.  For a well-formed selection on which the test of `OnUpClick`
passes, `OnDownClick` on the table and the selection left by `OnUpClick` passes its
test too, changes that state, and gives back the table and the selection from
before the two clicks; and the same with the two clicks exchanged. -/
theorem round_trip (w : Table α) (sel : Selection) (hwf : WellFormed w.length sel) :
    (upGuard sel = true →
      downGuard (OnUpClick w sel).1 (OnUpClick w sel).2 = true ∧
      OnDownClick (OnUpClick w sel).1 (OnUpClick w sel).2 ≠ OnUpClick w sel ∧
      OnDownClick (OnUpClick w sel).1 (OnUpClick w sel).2 = (w, sel)) ∧
    (downGuard w sel = true →
      upGuard (OnDownClick w sel).2 = true ∧
      OnUpClick (OnDownClick w sel).1 (OnDownClick w sel).2 ≠ OnDownClick w sel ∧
      OnUpClick (OnDownClick w sel).1 (OnDownClick w sel).2 = (w, sel)) := by
  constructor
  · intro hg
    have h := down_after_up w sel hg (up_bounds_of_wellFormed w sel hwf hg)
    have hne : sel ≠ [] := by
      obtain ⟨first, rest, rfl, -⟩ := (upGuard_eq_true sel).mp hg
      exact List.cons_ne_nil _ _
    have e : OnUpClick w sel = (sel.foldl upRange w, ShiftSelectionRange sel (-1)) := by
      simp [OnUpClick, hg]
    rw [e]
    refine ⟨h.1, ?_, h.2⟩
    rw [h.2]
    intro hc
    exact shift_ne sel (-1) (by omega) hne (congrArg Prod.snd hc).symm
  · intro hg
    have h := up_after_down w sel hg (down_bounds_of_wellFormed w sel hwf hg)
    have hne : sel ≠ [] := by
      obtain ⟨last, hl, -⟩ := (downGuard_eq_true w sel).mp hg
      rintro rfl
      simp at hl
    have e : OnDownClick w sel =
        (sel.reverse.foldl downRange w, ShiftSelectionRange sel 1) := by
      simp [OnDownClick, hg]
    rw [e]
    refine ⟨h.1, ?_, h.2⟩
    rw [h.2]
    intro hc
    exact shift_ne sel 1 (by omega) hne (congrArg Prod.snd hc).symm

/-- C4, witness: rows B and D..E of five rows, up and down again; rows A and C..D,
down and up again. -/
theorem round_trip_witness :
    WellFormed abcde.length [rowRange 1 1, rowRange 3 4] ∧
    upGuard [rowRange 1 1, rowRange 3 4] = true ∧
    OnDownClick (OnUpClick abcde [rowRange 1 1, rowRange 3 4]).1
      (OnUpClick abcde [rowRange 1 1, rowRange 3 4]).2 =
      (abcde, [rowRange 1 1, rowRange 3 4]) ∧
    WellFormed abcde.length [rowRange 0 0, rowRange 2 3] ∧
    downGuard abcde [rowRange 0 0, rowRange 2 3] = true ∧
    OnUpClick (OnDownClick abcde [rowRange 0 0, rowRange 2 3]).1
      (OnDownClick abcde [rowRange 0 0, rowRange 2 3]).2 =
      (abcde, [rowRange 0 0, rowRange 2 3]) :=
  ⟨by decide, by decide,
    ((round_trip abcde [rowRange 1 1, rowRange 3 4] (by decide)).1 (by decide)).2.2,
    by decide, by decide,
    ((round_trip abcde [rowRange 0 0, rowRange 2 3] (by decide)).2 (by decide)).2.2⟩

/-- C5: single-step distance of the selected rows.  For a well-formed selection on
which the test of the click passes, the row found at a selected index `p` before
the click is found at index `p - 1` after `OnUpClick`, and at index `p + 1` after
`OnDownClick`. -/
theorem selected_rows_move_one (w : Table α) (sel : Selection)
    (hwf : WellFormed w.length sel) :
    (upGuard sel = true → ∀ p, Selected sel p →
      ∃ row, rowAt w p = some row ∧ rowAt (OnUpClick w sel).1 (p - 1) = some row) ∧
    (downGuard w sel = true → ∀ p, Selected sel p →
      ∃ row, rowAt w p = some row ∧ rowAt (OnDownClick w sel).1 (p + 1) = some row) := by
  have hs := separated_of_wellFormed sel hwf.2.1 hwf.2.2.1 hwf.2.2.2
  constructor
  · intro hg p hp
    obtain ⟨r, hr, hp1, hp2⟩ := hp
    have hin := hwf.1 r hr
    obtain ⟨row, hrow⟩ := rowAt_eq_some w p (by omega) (by omega)
    refine ⟨row, hrow, ?_⟩
    simp only [OnUpClick, hg, if_true]
    rw [rowAt_foldl_upRange_of_selected sel w (up_bounds_of_wellFormed w sel hwf hg) hs r hr p
      ⟨hp1, hp2⟩, hrow]
  · intro hg p hp
    obtain ⟨r, hr, hp1, hp2⟩ := hp
    have hin := hwf.1 r hr
    obtain ⟨row, hrow⟩ := rowAt_eq_some w p (by omega) (by omega)
    refine ⟨row, hrow, ?_⟩
    simp only [OnDownClick, hg, if_true]
    rw [rowAt_foldl_downRange_of_selected sel w (down_bounds_of_wellFormed w sel hwf hg) hs r hr
      p ⟨hp1, hp2⟩, hrow]

/-- C5, witness: rows B and D selected; row D, at index 3, is at index 2 after the
move up and at index 4 after the move down. -/
theorem selected_rows_move_one_witness :
    WellFormed abcde.length [rowRange 1 1, rowRange 3 3] ∧
    (∃ row, rowAt abcde 3 = some row ∧
      rowAt (OnUpClick abcde [rowRange 1 1, rowRange 3 3]).1 (3 - 1) = some row) ∧
    (∃ row, rowAt abcde 3 = some row ∧
      rowAt (OnDownClick abcde [rowRange 1 1, rowRange 3 3]).1 (3 + 1) = some row) :=
  ⟨by decide,
    (selected_rows_move_one abcde [rowRange 1 1, rowRange 3 3] (by decide)).1 (by decide) 3
      (by decide),
    (selected_rows_move_one abcde [rowRange 1 1, rowRange 3 3] (by decide)).2 (by decide) 3
      (by decide)⟩

end Claims

section Claims
variable {α : Type}

theorem item_eq_rowAt (w : Table α) (j c : Int) :
    item w j c = (rowAt w j).bind fun r => r.cell c := by
  unfold item rowAt
  by_cases h : j < 0
  · simp [h]
  · simp only [h, if_false]
    cases w[j.toNat]? <;> rfl

theorem flatMap_congr_mem {β γ : Type} (l : List β) (f g : β → List γ)
    (h : ∀ a ∈ l, f a = g a) : l.flatMap f = l.flatMap g := by
  induction l with
  | nil => rfl
  | cons a l ih =>
    rw [List.flatMap_cons, List.flatMap_cons, h a (List.mem_cons_self _ _),
      ih fun b hb => h b (List.mem_cons_of_mem _ hb)]

theorem upRows_shift (r : QTableWidgetSelectionRange) (d : Int) :
    upRows ⟨r.topRow + d, r.leftColumn, r.bottomRow + d, r.rightColumn⟩ =
      (upRows r).map fun j => j + d := by
  unfold upRows QTableWidgetSelectionRange.rowCount
  simp only
  rw [List.map_map, show r.bottomRow + d - (r.topRow + d) + 1 = r.bottomRow - r.topRow + 1
    by omega]
  apply List.map_congr_left
  intro k _
  simp only [Function.comp]
  omega

/-- The identities under the shifted selection of a table are those under the
selection of another table when the selected rows moved along with the shift. -/
theorem selectedIds_shift (w w' : Table α) (sel : Selection) (d : Int)
    (h : ∀ r ∈ sel, ∀ p, r.topRow ≤ p ∧ p ≤ r.bottomRow → rowAt w' (p + d) = rowAt w p) :
    selectedIds w' (ShiftSelectionRange sel d) = selectedIds w sel := by
  unfold selectedIds ShiftSelectionRange
  rw [List.flatMap_map]
  apply flatMap_congr_mem
  intro r hr
  rw [upRows_shift, List.map_map]
  apply List.map_congr_left
  intro j hj
  rw [mem_upRows] at hj
  simp only [Function.comp]
  rw [item_eq_rowAt, item_eq_rowAt, h r hr j hj]

/-- C2: the selected identities are kept.  For a well-formed selection, the
identities found at the indices of the selection left by the click, in the table
left by the click, are a permutation of (have the same multiset as) the identities
found at the indices of the selection in the table before the click, for
`OnUpClick` and for `OnDownClick`. -/
theorem selected_identities_kept (w : Table α) (sel : Selection)
    (hwf : WellFormed w.length sel) :
    (selectedIds (OnUpClick w sel).1 (OnUpClick w sel).2).Perm (selectedIds w sel) ∧
    (selectedIds (OnDownClick w sel).1 (OnDownClick w sel).2).Perm (selectedIds w sel) := by
  have hs := separated_of_wellFormed sel hwf.2.1 hwf.2.2.1 hwf.2.2.2
  constructor
  · by_cases hg : upGuard sel = true
    · simp only [OnUpClick, hg, if_true]
      rw [selectedIds_shift w _ sel (-1)]
      intro r hr p hp
      exact rowAt_foldl_upRange_of_selected sel w (up_bounds_of_wellFormed w sel hwf hg) hs r hr
        p hp
    · simp only [OnUpClick, hg]
      exact List.Perm.refl _
  · by_cases hg : downGuard w sel = true
    · simp only [OnDownClick, hg, if_true]
      rw [selectedIds_shift w _ sel 1]
      intro r hr p hp
      exact rowAt_foldl_downRange_of_selected sel w (down_bounds_of_wellFormed w sel hwf hg) hs
        r hr p hp
    · simp only [OnDownClick, hg]
      exact List.Perm.refl _

/-- C2, witness: rows B and D..E of five rows; the identities B, D, E stay selected. -/
theorem selected_identities_kept_witness :
    WellFormed abcde.length [rowRange 1 1, rowRange 3 4] ∧
    selectedIds abcde [rowRange 1 1, rowRange 3 4] = [some "B", some "D", some "E"] ∧
    (selectedIds (OnUpClick abcde [rowRange 1 1, rowRange 3 4]).1
      (OnUpClick abcde [rowRange 1 1, rowRange 3 4]).2).Perm
      (selectedIds abcde [rowRange 1 1, rowRange 3 4]) :=
  ⟨by decide, by decide,
    (selected_identities_kept abcde [rowRange 1 1, rowRange 3 4] (by decide)).1⟩

/-- C6 (amended): a row that is not selected and has exactly `m` selected rows
right below it is found `m` indices further down after `OnUpClick`; a row that is
not selected and has exactly `m` selected rows right above it is found `m` indices
higher up after `OnDownClick` (well-formed selection, test of the click passed).
With `m = 0` the row takes part in no exchange and stays; with `m ≥ 1` it is passed
by the whole block and moves by the size of the block. -/
theorem unselected_rows_move_by_block (w : Table α) (sel : Selection)
    (hwf : WellFormed w.length sel) :
    (upGuard sel = true → ∀ q m : Int, 0 ≤ q → q < w.length → 0 ≤ m →
      ¬ Selected sel q → (∀ k, q < k → k ≤ q + m → Selected sel k) →
      ¬ Selected sel (q + m + 1) →
      ∃ row, rowAt w q = some row ∧ rowAt (OnUpClick w sel).1 (q + m) = some row) ∧
    (downGuard w sel = true → ∀ q m : Int, 0 ≤ q → q < w.length → 0 ≤ m →
      ¬ Selected sel q → (∀ k, q - m ≤ k → k < q → Selected sel k) →
      ¬ Selected sel (q - m - 1) →
      ∃ row, rowAt w q = some row ∧ rowAt (OnDownClick w sel).1 (q - m) = some row) := by
  have hs := separated_of_wellFormed sel hwf.2.1 hwf.2.2.1 hwf.2.2.2
  constructor
  · intro hg q m hq0 hq1 hm hq hrun hend
    obtain ⟨row, hrow⟩ := rowAt_eq_some w q hq0 hq1
    refine ⟨row, hrow, ?_⟩
    simp only [OnUpClick, hg, if_true]
    rw [rowAt_foldl_upRange_of_run sel w (up_bounds_of_wellFormed w sel hwf hg) hwf.2.1 hs q m hm
      hq hrun hend, hrow]
  · intro hg q m hq0 hq1 hm hq hrun hend
    obtain ⟨row, hrow⟩ := rowAt_eq_some w q hq0 hq1
    refine ⟨row, hrow, ?_⟩
    simp only [OnDownClick, hg, if_true]
    rw [rowAt_foldl_downRange_of_run sel w (down_bounds_of_wellFormed w sel hwf hg) hwf.2.1 hs q
      m hm hq hrun hend, hrow]

/-- C6, witness of the amended claim: rows B..C selected; row A, right above the
block of two, is found two indices further down after the move up. -/
theorem unselected_rows_move_by_block_witness :
    WellFormed abcde.length [rowRange 1 2] ∧ upGuard [rowRange 1 2] = true ∧
    ∃ row, rowAt abcde 0 = some row ∧
      rowAt (OnUpClick abcde [rowRange 1 2]).1 (0 + 2) = some row :=
  ⟨by decide, by decide,
    (unselected_rows_move_by_block abcde [rowRange 1 2] (by decide)).1 (by decide) 0 2
      (by decide) (by decide) (by decide) (by decide)
      (by
        intro k h1 h2
        have hk : k = 1 ∨ k = 2 := by omega
        rcases hk with rfl | rfl <;> decide)
      (by decide)⟩

/-- C6 as stated fails: with rows B..C of five rows selected, the first exchange of
`OnUpClick` is `SwapRows(1, 0)`, so the unselected row A takes part in an exchange,
and it ends at index 2, not at index 1; with rows C..D selected, the unselected row
E takes part in the exchange `SwapRows(3, 4)` of `OnDownClick` and ends at index 2,
not at index 3. -/
theorem unselected_rows_counterexample :
    (WellFormed abcde.length [rowRange 1 2] ∧ upGuard [rowRange 1 2] = true ∧
      ¬ Selected [rowRange 1 2] 0 ∧ (1 : Int) ∈ upRows (rowRange 1 2) ∧
      rowAt abcde 0 = some (Row.mk2 "A" "a") ∧
      rowAt (OnUpClick abcde [rowRange 1 2]).1 (0 + 1) ≠ some (Row.mk2 "A" "a") ∧
      rowAt (OnUpClick abcde [rowRange 1 2]).1 2 = some (Row.mk2 "A" "a")) ∧
    (WellFormed abcde.length [rowRange 2 3] ∧ downGuard abcde [rowRange 2 3] = true ∧
      ¬ Selected [rowRange 2 3] 4 ∧ (3 : Int) ∈ downRows (rowRange 2 3) ∧
      rowAt abcde 4 = some (Row.mk2 "E" "e") ∧
      rowAt (OnDownClick abcde [rowRange 2 3]).1 (4 - 1) ≠ some (Row.mk2 "E" "e") ∧
      rowAt (OnDownClick abcde [rowRange 2 3]).1 2 = some (Row.mk2 "E" "e")) := by
  decide

end Claims

section Claims
variable {α : Type}

theorem rowAt_append_left (l₁ l₂ : Table α) (p : Int) (hp : p < l₁.length) :
    rowAt (l₁ ++ l₂) p = rowAt l₁ p := by
  by_cases h0 : p < 0
  · rw [rowAt_neg _ _ h0, rowAt_neg _ _ h0]
  · obtain ⟨n, rfl⟩ := Int.eq_ofNat_of_zero_le (not_lt.mp h0)
    rw [rowAt_natCast, rowAt_natCast, List.getElem?_append_left (by omega)]

theorem rowAt_append_right (l₁ l₂ : Table α) (k : Int) (hk : 0 ≤ k) :
    rowAt (l₁ ++ l₂) (l₁.length + k) = rowAt l₂ k := by
  obtain ⟨n, rfl⟩ := Int.eq_ofNat_of_zero_le hk
  rw [show (l₁.length : Int) + (n : Int) = ((l₁.length + n : Nat) : Int) by push_cast; rfl,
    rowAt_natCast, rowAt_natCast, List.getElem?_append_right (by omega)]
  congr 1
  omega

theorem rowAt_cons_zero (x : Row α) (l : Table α) : rowAt (x :: l) 0 = some x := by
  simp [rowAt]

theorem rowAt_cons_succ (x : Row α) (l : Table α) (k : Int) (hk : 0 ≤ k) :
    rowAt (x :: l) (k + 1) = rowAt l k := by
  obtain ⟨n, rfl⟩ := Int.eq_ofNat_of_zero_le hk
  rw [show (n : Int) + 1 = ((n + 1 : Nat) : Int) by push_cast; rfl, rowAt_natCast,
    rowAt_natCast]
  simp

/-- C7: a single block moves up as a unit.  On the table `pre ++ [x] ++ block ++
post` with `block` not empty and the one range from row `|pre| + 1` to row
`|pre| + |block|`, `OnUpClick` leaves the table `pre ++ block ++ [x] ++ post` and
the one range from row `|pre|` to row `|pre| + |block| - 1`. -/
theorem single_block_moves_up (pre block post : Table α) (x : Row α) (left right : Int)
    (hblock : block ≠ []) :
    OnUpClick (pre ++ [x] ++ block ++ post)
        [⟨pre.length + 1, left, pre.length + block.length, right⟩] =
      (pre ++ block ++ [x] ++ post,
        [⟨pre.length, left, pre.length + block.length - 1, right⟩]) := by
  have hg : upGuard [⟨(pre.length : Int) + 1, left, pre.length + block.length, right⟩]
      = true := by
    simp only [upGuard, decide_eq_true_eq]
    omega
  simp only [OnUpClick, hg, if_true, List.foldl_cons, List.foldl_nil, ShiftSelectionRange,
    List.map_cons, List.map_nil, Prod.mk.injEq, List.cons.injEq, and_true,
    QTableWidgetSelectionRange.mk.injEq, true_and]
  refine ⟨?_, by omega, by omega⟩
  apply ext_rowAt
  intro p
  rw [rowAt_upRange _ _ (by simp only; omega)
    (by simp only [List.length_append, List.length_cons, List.length_nil]; push_cast; omega)]
  simp only [List.append_assoc, List.singleton_append, List.cons_append, List.nil_append]
  have hbl : 0 < block.length := List.length_pos.mpr hblock
  have eL : ∀ k : Int, 0 ≤ k →
      rowAt (pre ++ x :: (block ++ post)) (pre.length + k) = rowAt (x :: (block ++ post)) k :=
    fun k hk => rowAt_append_right _ _ _ hk
  have eR : ∀ k : Int, 0 ≤ k →
      rowAt (pre ++ (block ++ x :: post)) (pre.length + k) = rowAt (block ++ x :: post) k :=
    fun k hk => rowAt_append_right _ _ _ hk
  have eB : rowAt (block ++ x :: post) block.length = some x := by
    have := rowAt_append_right block (x :: post) 0 (le_refl _)
    rw [add_zero] at this
    rw [this, rowAt_cons_zero]
  by_cases h1 : p < pre.length
  · rw [if_neg (by omega), if_neg (by omega), rowAt_append_left _ _ _ h1,
      rowAt_append_left _ _ _ h1]
  · obtain ⟨k, hk0, rfl⟩ : ∃ k : Int, 0 ≤ k ∧ p = pre.length + k :=
      ⟨p - pre.length, by omega, by omega⟩
    by_cases h2 : k < block.length
    · rw [if_pos (by omega), show (pre.length : Int) + k + 1 = pre.length + (k + 1) by omega,
        eL _ (by omega), eR _ hk0, rowAt_cons_succ _ _ _ hk0,
        rowAt_append_left _ _ _ h2, rowAt_append_left _ _ _ h2]
    · by_cases h3 : k = block.length
      · subst h3
        rw [if_neg (by omega), if_pos (by omega),
          show (pre.length : Int) + 1 - 1 = pre.length + 0 by omega,
          eL _ (le_refl _), eR _ hk0, rowAt_cons_zero, eB]
      · obtain ⟨i, hi0, rfl⟩ : ∃ i : Int, 0 ≤ i ∧ k = block.length + (i + 1) :=
          ⟨k - block.length - 1, by omega, by omega⟩
        rw [if_neg (by omega), if_neg (by omega), eL _ hk0, eR _ hk0,
          rowAt_append_right block _ _ (by omega), rowAt_cons_succ x post _ hi0,
          show (block.length : Int) + (i + 1) = block.length + i + 1 by omega,
          rowAt_cons_succ _ _ _ (by omega), rowAt_append_right _ _ _ hi0]

/-- C7, witness: rows B..C of the five rows A..E. -/
theorem single_block_moves_up_witness :
    OnUpClick abcde [rowRange 1 2] =
      ([Row.mk2 "B" "b", Row.mk2 "C" "c", Row.mk2 "A" "a", Row.mk2 "D" "d", Row.mk2 "E" "e"],
        [rowRange 0 1]) :=
  single_block_moves_up [] [Row.mk2 "B" "b", Row.mk2 "C" "c"]
    [Row.mk2 "D" "d", Row.mk2 "E" "e"] (Row.mk2 "A" "a") 0 1 (by decide)

end Claims

section Claims
variable {α : Type}

/-- With ranges that are apart from each other, the row right below a range ends on
the first row of the range after the loops of `OnDownClick`. -/
theorem rowAt_foldl_downRange_top (sel : Selection) (w : Table α)
    (hb : ∀ r ∈ sel, 0 ≤ r.topRow ∧ r.bottomRow + 1 < w.length)
    (hne : NonEmptyRanges sel)
    (hs : sel.Pairwise fun a b => a.bottomRow + 1 < b.topRow)
    (r : QTableWidgetSelectionRange) (hr : r ∈ sel) :
    rowAt (sel.reverse.foldl downRange w) r.topRow = rowAt w (r.bottomRow + 1) := by
  induction sel with
  | nil => simp at hr
  | cons r0 sel ih =>
    have hr0 := hb r0 (List.mem_cons_self _ _)
    have hne0 := hne r0 (List.mem_cons_self _ _)
    have hsep := (List.pairwise_cons.mp hs).1
    have hb' : ∀ k ∈ sel, 0 ≤ k.topRow ∧ k.bottomRow + 1 < w.length :=
      fun k hk => hb k (List.mem_cons_of_mem _ hk)
    simp only [List.reverse_cons, List.foldl_append, List.foldl_cons, List.foldl_nil]
    rw [rowAt_downRange _ r0 hr0.1 (by rw [length_foldl_downRange]; exact hr0.2)]
    rcases List.mem_cons.mp hr with rfl | hr
    · rw [if_neg (by omega), if_pos ⟨rfl, hne0⟩]
      apply rowAt_foldl_downRange_of_untouched sel w hb'
      intro k hk
      have := hsep k hk
      omega
    · have := hsep r hr
      have ih := ih hb' (fun k hk => hne k (List.mem_cons_of_mem _ hk))
        (List.pairwise_cons.mp hs).2 hr
      rw [if_neg (by omega), if_neg (by omega)]
      exact ih

theorem apart_of_nonAdjacent (sel : Selection)
    (hs : sel.Pairwise fun a b => a.bottomRow < b.topRow) (hna : NonAdjacent sel) :
    sel.Pairwise fun a b => a.bottomRow + 1 < b.topRow := by
  unfold NonAdjacent at hna
  induction sel with
  | nil => exact List.Pairwise.nil
  | cons a l ih =>
    rw [List.pairwise_cons] at hs hna ⊢
    refine ⟨?_, ih hs.2 hna.2⟩
    intro b hb
    have h1 := hs.1 b hb
    have h2 := hna.1 b hb
    omega

/-- C8: disjoint blocks move down independently.  For ranges within bounds, each of
at least one row, ascending, not overlapping and not adjacent, with the last one
ending above the last row, the table `s'` left by `OnDownClick` satisfies, for each
range `(t, b)`: `s'[t] = s[b + 1]` and `s'[j + 1] = s[j]` for `j` in `t .. b`; and
`s'[i] = s[i]` for every index that is neither in a range nor right below one.  The
selection left behind is every range shifted by one, and the table is the only one
that satisfies these equations. -/
theorem disjoint_blocks_move_down (w : Table α) (sel : Selection)
    (hb : InBounds w.length sel) (hne : NonEmptyRanges sel) (hT : AscendingTop sel)
    (hno : NonOverlapping sel) (hna : NonAdjacent sel)
    (hlast : ∀ last ∈ sel.getLast?, last.bottomRow < rowCount w - 1) :
    ((∀ r ∈ sel, rowAt (OnDownClick w sel).1 r.topRow = rowAt w (r.bottomRow + 1) ∧
        ∀ j, r.topRow ≤ j → j ≤ r.bottomRow →
          rowAt (OnDownClick w sel).1 (j + 1) = rowAt w j) ∧
      (∀ i, (∀ r ∈ sel, i < r.topRow ∨ r.bottomRow + 1 < i) →
        rowAt (OnDownClick w sel).1 i = rowAt w i)) ∧
    (OnDownClick w sel).2 =
      sel.map (fun r => ⟨r.topRow + 1, r.leftColumn, r.bottomRow + 1, r.rightColumn⟩) ∧
    (∀ s' : Table α,
      (∀ r ∈ sel, rowAt s' r.topRow = rowAt w (r.bottomRow + 1) ∧
        ∀ j, r.topRow ≤ j → j ≤ r.bottomRow → rowAt s' (j + 1) = rowAt w j) →
      (∀ i, (∀ r ∈ sel, i < r.topRow ∨ r.bottomRow + 1 < i) → rowAt s' i = rowAt w i) →
      s' = (OnDownClick w sel).1) := by
  have hclauses : ∀ s' : Table α,
      (∀ r ∈ sel, rowAt s' r.topRow = rowAt w (r.bottomRow + 1) ∧
        ∀ j, r.topRow ≤ j → j ≤ r.bottomRow → rowAt s' (j + 1) = rowAt w j) →
      (∀ i, (∀ r ∈ sel, i < r.topRow ∨ r.bottomRow + 1 < i) → rowAt s' i = rowAt w i) →
      ∀ s'' : Table α,
      (∀ r ∈ sel, rowAt s'' r.topRow = rowAt w (r.bottomRow + 1) ∧
        ∀ j, r.topRow ≤ j → j ≤ r.bottomRow → rowAt s'' (j + 1) = rowAt w j) →
      (∀ i, (∀ r ∈ sel, i < r.topRow ∨ r.bottomRow + 1 < i) → rowAt s'' i = rowAt w i) →
      s'' = s' := by
    intro s' h1 h2 s'' h3 h4
    apply ext_rowAt
    intro p
    by_cases hp : ∃ r ∈ sel, r.topRow ≤ p ∧ p ≤ r.bottomRow + 1
    · obtain ⟨r, hr, hp1, hp2⟩ := hp
      by_cases hpt : p = r.topRow
      · rw [hpt, (h1 r hr).1, (h3 r hr).1]
      · have e : p = p - 1 + 1 := by omega
        rw [e, (h1 r hr).2 (p - 1) (by omega) (by omega),
          (h3 r hr).2 (p - 1) (by omega) (by omega)]
    · have hp' : ∀ r ∈ sel, p < r.topRow ∨ r.bottomRow + 1 < p := by
        intro r hr
        by_contra hc
        exact hp ⟨r, hr, by omega, by omega⟩
      rw [h2 p hp', h4 p hp']
  have hmain : (∀ r ∈ sel, rowAt (OnDownClick w sel).1 r.topRow = rowAt w (r.bottomRow + 1) ∧
        ∀ j, r.topRow ≤ j → j ≤ r.bottomRow →
          rowAt (OnDownClick w sel).1 (j + 1) = rowAt w j) ∧
      (∀ i, (∀ r ∈ sel, i < r.topRow ∨ r.bottomRow + 1 < i) →
        rowAt (OnDownClick w sel).1 i = rowAt w i) ∧
      (OnDownClick w sel).2 =
        sel.map (fun r => ⟨r.topRow + 1, r.leftColumn, r.bottomRow + 1, r.rightColumn⟩) := by
    cases hl : sel.getLast? with
    | none =>
      have : sel = [] := List.getLast?_eq_none_iff.mp hl
      subst this
      refine ⟨fun r hr => absurd hr (List.not_mem_nil _), fun i _ => rfl, rfl⟩
    | some last =>
      have hg : downGuard w sel = true :=
        (downGuard_eq_true w sel).mpr ⟨last, hl, hlast last hl⟩
      have hs := separated_of_wellFormed sel hne hno hT
      have hbd := down_bounds_of_wellFormed w sel ⟨hb, hne, hno, hT⟩ hg
      simp only [OnDownClick, hg, if_true]
      refine ⟨fun r hr => ⟨?_, fun j hj1 hj2 => ?_⟩, fun i hi => ?_, rfl⟩
      · exact rowAt_foldl_downRange_top sel w hbd hne (apart_of_nonAdjacent sel hs hna) r hr
      · exact rowAt_foldl_downRange_of_selected sel w hbd hs r hr j ⟨hj1, hj2⟩
      · exact rowAt_foldl_downRange_of_untouched sel w hbd i hi
  exact ⟨⟨hmain.1, hmain.2.1⟩, hmain.2.2,
    fun s' h3 h4 => hclauses _ hmain.1 hmain.2.1 s' h3 h4⟩

/-- C8, witness: rows A and C of the five rows A..E. -/
theorem disjoint_blocks_move_down_witness :
    OnDownClick abcde [rowRange 0 0, rowRange 2 2] =
      ([Row.mk2 "B" "b", Row.mk2 "A" "a", Row.mk2 "D" "d", Row.mk2 "C" "c", Row.mk2 "E" "e"],
        [rowRange 1 1, rowRange 3 3]) ∧
    (OnDownClick abcde [rowRange 0 0, rowRange 2 2]).2 =
      [rowRange 0 0, rowRange 2 2].map
        (fun r => ⟨r.topRow + 1, r.leftColumn, r.bottomRow + 1, r.rightColumn⟩) :=
  ⟨by decide,
    (disjoint_blocks_move_down abcde [rowRange 0 0, rowRange 2 2] (by decide) (by decide)
      (by decide) (by decide) (by decide) (by decide)).2.1⟩

end Claims

/-! ## The exchanges a click makes -/

section Claims
variable {α : Type}

/-- The table left by `OnUpClick` is the table after the calls listed by `upSwaps`. -/
theorem OnUpClick_eq_runSwaps (w : Table α) (sel : Selection) :
    (OnUpClick w sel).1 = runSwaps w (upSwaps sel) := by
  unfold OnUpClick upSwaps runSwaps
  by_cases hg : upGuard sel = true
  · simp only [hg, if_true]
    rw [foldl_upRange_eq, ← List.map_flatMap, List.foldl_map]
  · simp only [hg]
    rfl

/-- The table left by `OnDownClick` is the table after the calls listed by
`downSwaps`. -/
theorem OnDownClick_eq_runSwaps (w : Table α) (sel : Selection) :
    (OnDownClick w sel).1 = runSwaps w (downSwaps w sel) := by
  unfold OnDownClick downSwaps runSwaps
  by_cases hg : downGuard w sel = true
  · simp only [hg, if_true]
    rw [foldl_downRange_eq, ← List.map_flatMap, List.foldl_map]
  · simp only [hg]
    rfl

theorem mem_upSwaps (sel : Selection) (p : Int × Int) :
    p ∈ upSwaps sel ↔
      upGuard sel = true ∧ p.2 = p.1 - 1 ∧ ∃ r ∈ sel, r.topRow ≤ p.1 ∧ p.1 ≤ r.bottomRow := by
  unfold upSwaps
  by_cases hg : upGuard sel = true
  · simp only [hg, if_true, List.mem_flatMap, List.mem_map, true_and]
    constructor
    · rintro ⟨r, hr, j, hj, rfl⟩
      exact ⟨rfl, r, hr, (mem_upRows r j).mp hj⟩
    · rintro ⟨h2, r, hr, hj⟩
      exact ⟨r, hr, p.1, (mem_upRows r p.1).mpr hj, by rw [← h2]⟩
  · simp [hg]

theorem mem_downSwaps (w : Table α) (sel : Selection) (p : Int × Int) :
    p ∈ downSwaps w sel ↔
      downGuard w sel = true ∧ p.2 = p.1 + 1 ∧
        ∃ r ∈ sel, r.topRow ≤ p.1 ∧ p.1 ≤ r.bottomRow := by
  unfold downSwaps
  by_cases hg : downGuard w sel = true
  · simp only [hg, if_true, List.mem_flatMap, List.mem_map, true_and, List.mem_reverse]
    constructor
    · rintro ⟨r, hr, j, hj, rfl⟩
      exact ⟨rfl, r, hr, (mem_downRows r j).mp hj⟩
    · rintro ⟨h2, r, hr, hj⟩
      exact ⟨r, hr, p.1, (mem_downRows r p.1).mpr hj, by rw [← h2]⟩
  · simp [hg]

/-- C11: no failure on well-formed input.  For a table of N rows and a well-formed
selection, the table left by a click is the table after the calls of `SwapRows` listed
by `upSwaps` (`downSwaps`), every such call is `SwapRows(j, j - 1)` (`SwapRows(j, j + 1)`),
and both of its row numbers lie within `0 .. N - 1`. -/
theorem swaps_within_table (w : Table α) (sel : Selection) (hwf : WellFormed w.length sel) :
    ((OnUpClick w sel).1 = runSwaps w (upSwaps sel) ∧
      ∀ p ∈ upSwaps sel, p.2 = p.1 - 1 ∧
        (0 ≤ p.1 ∧ p.1 < w.length) ∧ (0 ≤ p.2 ∧ p.2 < w.length)) ∧
    ((OnDownClick w sel).1 = runSwaps w (downSwaps w sel) ∧
      ∀ p ∈ downSwaps w sel, p.2 = p.1 + 1 ∧
        (0 ≤ p.1 ∧ p.1 < w.length) ∧ (0 ≤ p.2 ∧ p.2 < w.length)) := by
  refine ⟨⟨OnUpClick_eq_runSwaps w sel, ?_⟩, ⟨OnDownClick_eq_runSwaps w sel, ?_⟩⟩
  · intro p hp
    obtain ⟨hg, h2, r, hr, h3, h4⟩ := (mem_upSwaps sel p).mp hp
    have := up_bounds_of_wellFormed w sel hwf hg r hr
    refine ⟨h2, ?_, ?_⟩ <;> omega
  · intro p hp
    obtain ⟨hg, h2, r, hr, h3, h4⟩ := (mem_downSwaps w sel p).mp hp
    have := down_bounds_of_wellFormed w sel hwf hg r hr
    refine ⟨h2, ?_, ?_⟩ <;> omega

/-- C11, witness: rows B and D..E of five rows moved up, rows A and C..D moved down. -/
theorem swaps_within_table_witness :
    WellFormed abcde.length [rowRange 1 1, rowRange 3 4] ∧
    upSwaps [rowRange 1 1, rowRange 3 4] = [(1, 0), (3, 2), (4, 3)] ∧
    (∀ p ∈ upSwaps [rowRange 1 1, rowRange 3 4], p.2 = p.1 - 1 ∧
      (0 ≤ p.1 ∧ p.1 < abcde.length) ∧ (0 ≤ p.2 ∧ p.2 < abcde.length)) ∧
    WellFormed abcde.length [rowRange 0 0, rowRange 2 3] ∧
    downSwaps abcde [rowRange 0 0, rowRange 2 3] = [(3, 4), (2, 3), (0, 1)] ∧
    (∀ p ∈ downSwaps abcde [rowRange 0 0, rowRange 2 3], p.2 = p.1 + 1 ∧
      (0 ≤ p.1 ∧ p.1 < abcde.length) ∧ (0 ≤ p.2 ∧ p.2 < abcde.length)) :=
  ⟨by decide, by decide,
    (swaps_within_table abcde [rowRange 1 1, rowRange 3 4] (by decide)).1.2,
    by decide, by decide,
    (swaps_within_table abcde [rowRange 0 0, rowRange 2 3] (by decide)).2.2⟩

/-- C14: the test of `OnUpClick` looks at the first range of the list only, and the
test of `OnDownClick` at the last one only.  On three rows with the ranges (2,2) and
(0,0) listed in this order (in bounds, not overlapping, of one row each, not
ascending) the test of `OnUpClick` passes, the loops of `OnUpClick` call
`SwapRows(2, 1)` and then `SwapRows(0, -1)` on the table, which leaves row 0 without
items, and the selection left behind has a range with `topRow` -1.  The test of
`OnDownClick` passes too, its loops call `SwapRows(0, 1)` and then `SwapRows(2, 3)`,
which leaves row 2 without items, and the selection left behind has a range with
`bottomRow` 3. -/
theorem guard_looks_at_one_range :
    (∀ (first : QTableWidgetSelectionRange) (rest rest' : Selection),
      upGuard (first :: rest) = upGuard (first :: rest')) ∧
    (∀ (w : Table String) (init init' : Selection) (last : QTableWidgetSelectionRange),
      downGuard w (init ++ [last]) = downGuard w (init' ++ [last])) ∧
    (InBounds abc.length [rowRange 2 2, rowRange 0 0] ∧
      NonOverlapping [rowRange 2 2, rowRange 0 0] ∧
      NonEmptyRanges [rowRange 2 2, rowRange 0 0] ∧
      ¬ AscendingTop [rowRange 2 2, rowRange 0 0]) ∧
    (upGuard [rowRange 2 2, rowRange 0 0] = true ∧
      upRange abc (rowRange 2 2) = SwapRows abc 2 1 ∧
      upRange (SwapRows abc 2 1) (rowRange 0 0) = SwapRows (SwapRows abc 2 1) 0 (-1) ∧
      (OnUpClick abc [rowRange 2 2, rowRange 0 0]).1 = SwapRows (SwapRows abc 2 1) 0 (-1) ∧
      (OnUpClick abc [rowRange 2 2, rowRange 0 0]).1 =
        [{ code := none, name := none }, Row.mk2 "C" "c", Row.mk2 "B" "b"] ∧
      (OnUpClick abc [rowRange 2 2, rowRange 0 0]).2 = [rowRange 1 1, rowRange (-1) (-1)] ∧
      upSwaps [rowRange 2 2, rowRange 0 0] = [(2, 1), (0, -1)]) ∧
    (downGuard abc [rowRange 2 2, rowRange 0 0] = true ∧
      downRange abc (rowRange 0 0) = SwapRows abc 0 1 ∧
      downRange (SwapRows abc 0 1) (rowRange 2 2) = SwapRows (SwapRows abc 0 1) 2 3 ∧
      (OnDownClick abc [rowRange 2 2, rowRange 0 0]).1 = SwapRows (SwapRows abc 0 1) 2 3 ∧
      (OnDownClick abc [rowRange 2 2, rowRange 0 0]).1 =
        [Row.mk2 "B" "b", Row.mk2 "A" "a", { code := none, name := none }] ∧
      (OnDownClick abc [rowRange 2 2, rowRange 0 0]).2 = [rowRange 3 3, rowRange 1 1] ∧
      downSwaps abc [rowRange 2 2, rowRange 0 0] = [(0, 1), (2, 3)]) ∧
    (∀ (w : Table String) (sel : Selection),
      (OnUpClick w sel).1 = runSwaps w (upSwaps sel) ∧
      (OnDownClick w sel).1 = runSwaps w (downSwaps w sel)) := by
  refine ⟨fun _ _ _ => rfl, ?_, by decide, by decide, by decide,
    fun w sel => ⟨OnUpClick_eq_runSwaps w sel, OnDownClick_eq_runSwaps w sel⟩⟩
  intro w init init' last
  simp [downGuard]

end Claims

/-! ## Splitting a range in two -/

section Claims
variable {α : Type}

theorem selected_append (s₁ s₂ : Selection) (p : Int) :
    Selected (s₁ ++ s₂) p ↔ Selected s₁ p ∨ Selected s₂ p := by
  induction s₁ with
  | nil => simp [selected_nil]
  | cons r s₁ ih => rw [List.cons_append, selected_cons, selected_cons, ih, or_assoc]

theorem selected_shift (sel : Selection) (d p : Int) :
    Selected (ShiftSelectionRange sel d) p ↔ Selected sel (p - d) := by
  induction sel with
  | nil => simp [ShiftSelectionRange, selected_nil]
  | cons r sel ih =>
    have e : ShiftSelectionRange (r :: sel) d =
        ⟨r.topRow + d, r.leftColumn, r.bottomRow + d, r.rightColumn⟩ ::
          ShiftSelectionRange sel d := rfl
    rw [e, selected_cons, selected_cons, ih]
    constructor
    · rintro (h | h)
      · exact Or.inl ⟨by simp only at h; omega, by simp only at h; omega⟩
      · exact Or.inr h
    · rintro (h | h)
      · exact Or.inl ⟨by simp only; omega, by simp only; omega⟩
      · exact Or.inr h

theorem upRows_split (t m b l c : Int) (htm : t ≤ m) (hmb : m < b) :
    upRows ⟨t, l, b, c⟩ = upRows ⟨t, l, m, c⟩ ++ upRows ⟨m + 1, l, b, c⟩ := by
  unfold upRows QTableWidgetSelectionRange.rowCount
  simp only
  have e : (b - t + 1).toNat = (m - t + 1).toNat + (b - (m + 1) + 1).toNat := by omega
  rw [e, List.range_add, List.map_append, List.map_map]
  congr 1
  apply List.map_congr_left
  intro k _
  simp only [Function.comp]
  push_cast
  omega

theorem downRows_split (t m b l c : Int) (htm : t ≤ m) (hmb : m < b) :
    downRows ⟨t, l, b, c⟩ = downRows ⟨m + 1, l, b, c⟩ ++ downRows ⟨t, l, m, c⟩ := by
  unfold downRows QTableWidgetSelectionRange.rowCount
  simp only
  have e : (b - t + 1).toNat = (b - (m + 1) + 1).toNat + (m - t + 1).toNat := by omega
  rw [e, List.range_add, List.map_append, List.map_map]
  congr 1
  apply List.map_congr_left
  intro k _
  simp only [Function.comp]
  push_cast
  omega

theorem upGuard_split (pre post : Selection) (t m b l c : Int) :
    upGuard (pre ++ ⟨t, l, m, c⟩ :: ⟨m + 1, l, b, c⟩ :: post) =
      upGuard (pre ++ ⟨t, l, b, c⟩ :: post) := by
  cases pre <;> rfl

theorem downGuard_split (w : Table α) (pre post : Selection) (t m b l c : Int) :
    downGuard w (pre ++ ⟨t, l, m, c⟩ :: ⟨m + 1, l, b, c⟩ :: post) =
      downGuard w (pre ++ ⟨t, l, b, c⟩ :: post) := by
  unfold downGuard
  cases post with
  | nil => simp [List.getLast?_append, List.getLast?_cons_cons]
  | cons q post => simp [List.getLast?_append, List.getLast?_cons_cons]

/-- C15: the result does not depend on how a block is split into ranges.  Replacing
a range `(t, b)` of a selection by the two touching ranges `(t, m)` and `(m + 1, b)`,
`t ≤ m < b`, gives the same table after `OnUpClick` and after `OnDownClick`, and a
selection that covers the same row numbers.  This holds for every list of ranges
around the replaced one, in particular for an ascending, non-overlapping one within
bounds. -/
theorem split_range_same_result (w : Table α) (pre post : Selection) (t m b l c : Int)
    (htm : t ≤ m) (hmb : m < b) :
    ((OnUpClick w (pre ++ ⟨t, l, m, c⟩ :: ⟨m + 1, l, b, c⟩ :: post)).1 =
        (OnUpClick w (pre ++ ⟨t, l, b, c⟩ :: post)).1 ∧
      ∀ p, Selected (OnUpClick w (pre ++ ⟨t, l, m, c⟩ :: ⟨m + 1, l, b, c⟩ :: post)).2 p ↔
        Selected (OnUpClick w (pre ++ ⟨t, l, b, c⟩ :: post)).2 p) ∧
    ((OnDownClick w (pre ++ ⟨t, l, m, c⟩ :: ⟨m + 1, l, b, c⟩ :: post)).1 =
        (OnDownClick w (pre ++ ⟨t, l, b, c⟩ :: post)).1 ∧
      ∀ p, Selected (OnDownClick w (pre ++ ⟨t, l, m, c⟩ :: ⟨m + 1, l, b, c⟩ :: post)).2 p ↔
        Selected (OnDownClick w (pre ++ ⟨t, l, b, c⟩ :: post)).2 p) := by
  have hsel : ∀ q, Selected (pre ++ ⟨t, l, m, c⟩ :: ⟨m + 1, l, b, c⟩ :: post) q ↔
      Selected (pre ++ ⟨t, l, b, c⟩ :: post) q := by
    intro q
    rw [selected_append, selected_append, selected_cons, selected_cons, selected_cons]
    simp only
    constructor
    · rintro (h | h | h | h)
      · exact Or.inl h
      · exact Or.inr (Or.inl ⟨by omega, by omega⟩)
      · exact Or.inr (Or.inl ⟨by omega, by omega⟩)
      · exact Or.inr (Or.inr h)
    · rintro (h | h | h)
      · exact Or.inl h
      · by_cases hq : q ≤ m
        · exact Or.inr (Or.inl ⟨by omega, hq⟩)
        · exact Or.inr (Or.inr (Or.inl ⟨by omega, by omega⟩))
      · exact Or.inr (Or.inr (Or.inr h))
  constructor
  · unfold OnUpClick
    rw [upGuard_split]
    by_cases hg : upGuard (pre ++ ⟨t, l, b, c⟩ :: post) = true
    · simp only [hg, if_true]
      refine ⟨?_, fun p => ?_⟩
      · rw [foldl_upRange_eq, foldl_upRange_eq]
        congr 1
        simp only [List.flatMap_append, List.flatMap_cons]
        rw [upRows_split t m b l c htm hmb, List.append_assoc]
      · rw [selected_shift, selected_shift]
        exact hsel _
    · simp only [hg]
      exact ⟨rfl, hsel⟩
  · unfold OnDownClick
    rw [downGuard_split]
    by_cases hg : downGuard w (pre ++ ⟨t, l, b, c⟩ :: post) = true
    · simp only [hg, if_true]
      refine ⟨?_, fun p => ?_⟩
      · rw [foldl_downRange_eq, foldl_downRange_eq]
        congr 1
        simp only [List.reverse_append, List.reverse_cons, List.flatMap_append,
          List.flatMap_cons, List.flatMap_nil, List.append_nil, List.append_assoc]
        rw [downRows_split t m b l c htm hmb, List.append_assoc]
      · rw [selected_shift, selected_shift]
        exact hsel _
    · simp only [hg]
      exact ⟨rfl, hsel⟩

/-- C15, witness: rows B..D of five rows as one range and as the ranges B..C and D. -/
theorem split_range_same_result_witness :
    (OnUpClick abcde [rowRange 1 2, rowRange 3 3]).1 = (OnUpClick abcde [rowRange 1 3]).1 ∧
    (OnDownClick abcde [rowRange 1 2, rowRange 3 3]).1 =
      (OnDownClick abcde [rowRange 1 3]).1 :=
  ⟨(split_range_same_result abcde [] [] 1 2 3 0 1 (by decide) (by decide)).1.1,
   (split_range_same_result abcde [] [] 1 2 3 0 1 (by decide) (by decide)).2.1⟩

end Claims

/-! ## The move down as the mirror image of the move up -/

section Mirror
variable {α : Type}

theorem rowAt_eq_none_of_le (w : Table α) (p : Int) (hp : (w.length : Int) ≤ p) :
    rowAt w p = none := by
  unfold rowAt
  split
  · rfl
  · exact List.getElem?_eq_none (by omega)

/-- Row `p` of the reversed table is row `N - 1 - p` of the table. -/
theorem rowAt_reverse (w : Table α) (p : Int) :
    rowAt w.reverse p = rowAt w (w.length - 1 - p) := by
  by_cases h0 : p < 0
  · rw [rowAt_neg _ _ h0, rowAt_eq_none_of_le _ _ (by omega)]
  · by_cases h1 : (w.length : Int) ≤ p
    · rw [rowAt_eq_none_of_le _ _ (by rw [List.length_reverse]; exact h1),
        rowAt_neg _ _ (by omega)]
    · obtain ⟨n, rfl⟩ := Int.eq_ofNat_of_zero_le (not_lt.mp h0)
      have hn : n < w.length := by omega
      have e : (w.length : Int) - 1 - (n : Int) = ((w.length - 1 - n : Nat) : Int) := by omega
      rw [e, rowAt_natCast, rowAt_natCast, List.getElem?_reverse hn]

/-- The rows of the table after `setItem`. -/
theorem rowAt_setItem (w : Table α) (i c : Int) (v : Option α) (p : Int) :
    rowAt (setItem w i c v) p =
      if p = i then (rowAt w i).map (fun r => r.setCell c v) else rowAt w p := by
  by_cases hi : i < 0
  · have e : setItem w i c v = w := by simp [setItem, hi]
    rw [e]
    split_ifs with h
    · rw [h, rowAt_neg _ _ hi]; rfl
    · rfl
  · obtain ⟨a, rfl⟩ := Int.eq_ofNat_of_zero_le (not_lt.mp hi)
    by_cases hp : p < 0
    · rw [rowAt_neg _ _ hp, rowAt_neg _ _ hp, if_neg (by omega)]
    · obtain ⟨n, rfl⟩ := Int.eq_ofNat_of_zero_le (not_lt.mp hp)
      rw [rowAt_natCast, rowAt_natCast, rowAt_natCast, getElem?_setItem]
      simp only [Nat.cast_inj]

theorem setItem_reverse (w : Table α) (n : Int) (hn : (w.length : Int) = n) (i c : Int)
    (v : Option α) :
    setItem w.reverse (n - 1 - i) c v = (setItem w i c v).reverse := by
  apply ext_rowAt
  intro p
  rw [rowAt_setItem, rowAt_reverse, rowAt_reverse, rowAt_reverse, rowAt_setItem,
    length_setItem, hn]
  have e : n - 1 - (n - 1 - i) = i := by omega
  rw [e]
  by_cases h : p = n - 1 - i
  · rw [if_pos h, if_pos (by omega)]
  · rw [if_neg h, if_neg (by omega)]

theorem item_reverse (w : Table α) (n : Int) (hn : (w.length : Int) = n) (i c : Int) :
    item w.reverse (n - 1 - i) c = item w i c := by
  rw [item_eq_rowAt, item_eq_rowAt, rowAt_reverse, hn]
  have e : n - 1 - (n - 1 - i) = i := by omega
  rw [e]

/-- An exchange of two rows of the reversed table, at the mirrored row numbers, is the
exchange in the table, reversed; this holds for row numbers outside the table too. -/
theorem SwapRows_reverse (w : Table α) (n : Int) (hn : (w.length : Int) = n) (i j : Int) :
    SwapRows w.reverse (n - 1 - i) (n - 1 - j) = (SwapRows w i j).reverse := by
  simp only [SwapRows, takeItem]
  have h1 := setItem_reverse w n hn i 0 none
  have l1 : ((setItem w i 0 none).length : Int) = n := by rw [length_setItem]; exact hn
  have h2 := setItem_reverse _ n l1 i 1 none
  have l2 : ((setItem (setItem w i 0 none) i 1 none).length : Int) = n := by
    rw [length_setItem]; exact l1
  have h3 := setItem_reverse _ n l2 j 0 none
  have l3 : ((setItem (setItem (setItem w i 0 none) i 1 none) j 0 none).length : Int) = n := by
    rw [length_setItem]; exact l2
  rw [h1, h2, h3, item_reverse w n hn, item_reverse _ n l1, item_reverse _ n l2]
  rw [setItem_reverse _ n l3]
  have l4 := l3
  rw [← length_setItem _ i 0 (item (setItem (setItem w i 0 none) i 1 none) j 0)] at l4
  rw [item_reverse _ n l4, setItem_reverse _ n l4]
  have l5 := l4
  rw [← length_setItem _ j 1 none] at l5
  rw [setItem_reverse _ n l5]
  have l6 := l5
  rw [← length_setItem _ i 1 (item (setItem (setItem (setItem (setItem w i 0 none) i 1 none)
    j 0 none) i 0 (item (setItem (setItem w i 0 none) i 1 none) j 0)) j 1)] at l6
  rw [setItem_reverse _ n l6]
  have l7 := l6
  rw [← length_setItem _ j 0 (item w i 0)] at l7
  rw [setItem_reverse _ n l7]

end Mirror

section Mirror
variable {α : Type}

theorem upRows_mirrorRange (n : Int) (r : QTableWidgetSelectionRange) :
    upRows (mirrorRange n r) = (downRows r).map fun j => n - 1 - j := by
  unfold upRows downRows mirrorRange QTableWidgetSelectionRange.rowCount
  simp only
  rw [List.map_map,
    show n - 1 - r.topRow - (n - 1 - r.bottomRow) + 1 = r.bottomRow - r.topRow + 1 by omega]
  apply List.map_congr_left
  intro k _
  simp only [Function.comp]
  omega

/-- The inner loop of `OnUpClick` on the reversed table, at the mirrored row numbers,
is the inner loop of `OnDownClick`, reversed. -/
theorem upLoop_reverse (n : Int) (js : List Int) (w : Table α)
    (hn : (w.length : Int) = n) :
    (js.map fun j => n - 1 - j).foldl (fun w j => SwapRows w j (j - 1)) w.reverse =
      (js.foldl (fun w j => SwapRows w j (j + 1)) w).reverse := by
  induction js generalizing w with
  | nil => rfl
  | cons j js ih =>
    simp only [List.map_cons, List.foldl_cons]
    rw [show n - 1 - j - 1 = n - 1 - (j + 1) by omega, SwapRows_reverse w n hn,
      ih _ (by rw [length_SwapRows]; exact hn)]

theorem upRange_mirrorRange (n : Int) (w : Table α) (hn : (w.length : Int) = n)
    (r : QTableWidgetSelectionRange) :
    upRange w.reverse (mirrorRange n r) = (downRange w r).reverse := by
  unfold upRange downRange
  rw [upRows_mirrorRange, upLoop_reverse n _ w hn]

theorem foldl_upRange_mirror (n : Int) (l : Selection) (w : Table α)
    (hn : (w.length : Int) = n) :
    (l.map (mirrorRange n)).foldl upRange w.reverse = (l.foldl downRange w).reverse := by
  induction l generalizing w with
  | nil => rfl
  | cons r l ih =>
    simp only [List.map_cons, List.foldl_cons]
    rw [upRange_mirrorRange n w hn, ih _ (by rw [length_downRange]; exact hn)]

theorem upGuard_eq_head (sel : Selection) :
    upGuard sel =
      match sel.head? with
      | none => false
      | some first => decide (first.topRow > 0) := by
  cases sel <;> rfl

/-- The test of `OnUpClick` on the mirrored selection is the test of `OnDownClick`. -/
theorem upGuard_mirror (w : Table α) (sel : Selection) :
    upGuard (mirror (rowCount w) sel) = downGuard w sel := by
  rw [upGuard_eq_head]
  unfold mirror downGuard
  rw [List.head?_map, List.head?_reverse]
  cases sel.getLast? with
  | none => rfl
  | some last =>
    simp only [Option.map_some', mirrorRange, gt_iff_lt, decide_eq_decide]
    omega

theorem mirror_mirror (n : Int) (sel : Selection) : mirror n (mirror n sel) = sel := by
  unfold mirror
  rw [← List.map_reverse, List.reverse_reverse, List.map_map]
  conv => rhs; rw [← List.map_id sel]
  apply List.map_congr_left
  intro r _
  cases r with
  | mk t l b c =>
    simp only [Function.comp, mirrorRange, id, QTableWidgetSelectionRange.mk.injEq, and_true,
      true_and]
    constructor <;> omega

theorem mirror_shift_mirror (n : Int) (sel : Selection) :
    mirror n (ShiftSelectionRange (mirror n sel) (-1)) = ShiftSelectionRange sel 1 := by
  unfold mirror ShiftSelectionRange
  rw [← List.map_reverse, ← List.map_reverse, List.reverse_reverse, List.map_map, List.map_map]
  apply List.map_congr_left
  intro r _
  simp only [Function.comp, mirrorRange, QTableWidgetSelectionRange.mk.injEq, and_true,
    true_and]
  constructor <;> omega

end Mirror

section Claims
variable {α : Type}

/-- C13: `OnDownClick` is the mirror image of `OnUpClick`.  For a table `s` of N rows
and a selection `sel`, the state left by `OnDownClick` on `s` and `sel` is the state
left by `OnUpClick` on the reversed table and the mirrored selection, with the table
reversed back and the selection mirrored back; the test of one click passes exactly
when the test of the other does.  This holds for every list of ranges, in particular
for one within bounds. -/
theorem down_is_mirror_of_up (s : Table α) (sel : Selection) :
    OnDownClick s sel =
      ((OnUpClick s.reverse (mirror (rowCount s) sel)).1.reverse,
        mirror (rowCount s) (OnUpClick s.reverse (mirror (rowCount s) sel)).2) ∧
    (downGuard s sel = upGuard (mirror (rowCount s) sel)) := by
  refine ⟨?_, (upGuard_mirror s sel).symm⟩
  unfold OnDownClick OnUpClick
  rw [upGuard_mirror]
  by_cases hg : downGuard s sel = true
  · simp only [hg, if_true]
    rw [mirror_shift_mirror]
    unfold mirror
    rw [foldl_upRange_mirror (rowCount s) _ s rfl, List.reverse_reverse]
  · have hf : downGuard s sel = false := by simpa using hg
    simp only [hf, Bool.false_eq_true, if_false]
    rw [List.reverse_reverse, mirror_mirror]

end Claims

/-! ## Repeated clicks -/

section Claims
variable {α : Type}

theorem OnUpClick_snd (w : Table α) (sel : Selection) :
    (OnUpClick w sel).2 = if upGuard sel then ShiftSelectionRange sel (-1) else sel := by
  unfold OnUpClick
  split <;> rfl

theorem OnDownClick_snd (w : Table α) (sel : Selection) :
    (OnDownClick w sel).2 =
      if downGuard w sel then ShiftSelectionRange sel 1 else sel := by
  unfold OnDownClick
  split <;> rfl

theorem shift_add (sel : Selection) (d e : Int) :
    ShiftSelectionRange (ShiftSelectionRange sel d) e = ShiftSelectionRange sel (d + e) := by
  unfold ShiftSelectionRange
  rw [List.map_map]
  apply List.map_congr_left
  intro r _
  simp only [Function.comp, QTableWidgetSelectionRange.mk.injEq, and_true, true_and]
  constructor <;> omega

theorem shift_zero (sel : Selection) : ShiftSelectionRange sel 0 = sel := by
  unfold ShiftSelectionRange
  conv => rhs; rw [← List.map_id sel]
  apply List.map_congr_left
  intro r _
  cases r with
  | mk t l b c => simp

/-- Shifting all ranges by the same offset keeps the selected rows in one run, or not
in one run. -/
theorem oneRun_shift (sel : Selection) (d : Int) :
    OneRun (ShiftSelectionRange sel d) ↔ OneRun sel := by
  unfold OneRun
  constructor
  · intro h a b p ha hb h1 h2
    have := h (a + d) (b + d) (p + d)
      ((selected_shift sel d _).mpr (by rw [show a + d - d = a by omega]; exact ha))
      ((selected_shift sel d _).mpr (by rw [show b + d - d = b by omega]; exact hb))
      (by omega) (by omega)
    rw [selected_shift, show p + d - d = p by omega] at this
    exact this
  · intro h a b p ha hb h1 h2
    rw [selected_shift] at ha hb ⊢
    exact h _ _ _ ha hb (by omega) (by omega)

theorem length_OnUpClick (w : Table α) (sel : Selection) :
    (OnUpClick w sel).1.length = w.length := by
  unfold OnUpClick
  split
  · exact length_foldl_upRange sel w
  · rfl

theorem length_OnDownClick (w : Table α) (sel : Selection) :
    (OnDownClick w sel).1.length = w.length := by
  unfold OnDownClick
  split
  · exact length_foldl_downRange _ w
  · rfl

theorem length_repeatUp (w : Table α) (sel : Selection) (k : Nat) :
    (repeatUp k w sel).1.length = w.length := by
  induction k with
  | zero => rfl
  | succ k ih =>
    have e : repeatUp (k + 1) w sel =
        OnUpClick (repeatUp k w sel).1 (repeatUp k w sel).2 := rfl
    rw [e, length_OnUpClick, ih]

theorem length_repeatDown (w : Table α) (sel : Selection) (k : Nat) :
    (repeatDown k w sel).1.length = w.length := by
  induction k with
  | zero => rfl
  | succ k ih =>
    have e : repeatDown (k + 1) w sel =
        OnDownClick (repeatDown k w sel).1 (repeatDown k w sel).2 := rfl
    rw [e, length_OnDownClick, ih]

theorem upGuard_shift (first : QTableWidgetSelectionRange) (rest : Selection) (d : Int) :
    upGuard (ShiftSelectionRange (first :: rest) d) = decide (first.topRow + d > 0) := by
  rfl

theorem downGuard_shift (w : Table α) (init : Selection) (last : QTableWidgetSelectionRange)
    (d : Int) :
    downGuard w (ShiftSelectionRange (init ++ [last]) d) =
      decide (last.bottomRow + d < rowCount w - 1) := by
  unfold downGuard
  rw [getLast?_shift, List.getLast?_concat]
  rfl

/-- After `k` clicks on the up button every range has moved up by `k` rows, or by
the first `topRow` when that is less. -/
theorem repeatUp_snd_exact (w : Table α) (first : QTableWidgetSelectionRange)
    (rest : Selection) (h0 : 0 ≤ first.topRow) (k : Nat) :
    (repeatUp k w (first :: rest)).2 =
      ShiftSelectionRange (first :: rest) (-(min (k : Int) first.topRow)) := by
  induction k with
  | zero =>
    rw [show -(min ((0 : Nat) : Int) first.topRow) = 0 by simp [h0], shift_zero]
    rfl
  | succ k ih =>
    have e : (repeatUp (k + 1) w (first :: rest)).2 =
        (OnUpClick (repeatUp k w (first :: rest)).1 (repeatUp k w (first :: rest)).2).2 := rfl
    rw [e, OnUpClick_snd, ih, upGuard_shift]
    by_cases hk : (k : Int) < first.topRow
    · rw [if_pos (by simp only [decide_eq_true_eq]; omega), shift_add]
      congr 1
      push_cast
      omega
    · rw [if_neg (by simp only [decide_eq_true_eq]; omega)]
      congr 1
      push_cast
      omega

/-- After `k` clicks on the down button every range has moved down by `k` rows, or by
the number of rows below the last `bottomRow` when that is less. -/
theorem repeatDown_snd_exact (w : Table α) (init : Selection)
    (last : QTableWidgetSelectionRange) (h0 : last.bottomRow ≤ rowCount w - 1) (k : Nat) :
    (repeatDown k w (init ++ [last])).2 =
      ShiftSelectionRange (init ++ [last])
        (min (k : Int) (rowCount w - 1 - last.bottomRow)) := by
  induction k with
  | zero =>
    rw [show min ((0 : Nat) : Int) (rowCount w - 1 - last.bottomRow) = 0 by
      simp only [Nat.cast_zero]; omega, shift_zero]
    rfl
  | succ k ih =>
    have e : (repeatDown (k + 1) w (init ++ [last])).2 =
        (OnDownClick (repeatDown k w (init ++ [last])).1
          (repeatDown k w (init ++ [last])).2).2 := rfl
    have hl : rowCount (repeatDown k w (init ++ [last])).1 = rowCount w := by
      unfold rowCount
      rw [length_repeatDown]
    rw [e, OnDownClick_snd, ih, downGuard_shift, hl]
    by_cases hk : (k : Int) < rowCount w - 1 - last.bottomRow
    · rw [if_pos (by simp only [decide_eq_true_eq]; omega), shift_add]
      congr 1
      push_cast
      omega
    · rw [if_neg (by simp only [decide_eq_true_eq]; omega)]
      congr 1
      push_cast
      omega

theorem wellFormed_shift (n : Nat) (sel : Selection) (d : Int) (hwf : WellFormed n sel)
    (h : ∀ r ∈ sel, 0 ≤ r.topRow + d ∧ r.bottomRow + d < n) :
    WellFormed n (ShiftSelectionRange sel d) := by
  refine ⟨inBounds_shift n sel d ?_, nonEmptyRanges_shift sel d hwf.2.1,
    nonOverlapping_shift sel d hwf.2.2.1, ascendingTop_shift sel d hwf.2.2.2⟩
  intro r hr
  have h1 := h r hr
  have h2 := hwf.2.1 r hr
  omega

/-- C12 (amended): blocks never merge.  For a table of N rows and a well-formed
selection with two or more blocks separated by unselected rows, after any number `k`
of clicks on the up button, each on the state left by the click before, the selection
is again well-formed for the N rows and its selected rows still do not form one
contiguous run: it is the first selection with every range moved up by `min k t`
rows, `t` the first `topRow`, and from the `t`-th click on (the first block is at the
top edge) a further click returns table and selection unchanged.  The same holds for
the down button, with every range moved down by `min k (N - 1 - b)` rows, `b` the
last `bottomRow`. -/
theorem blocks_never_merge (w : Table α) (sel : Selection)
    (hwf : WellFormed w.length sel) (hsep : ¬ OneRun sel) (k : Nat) :
    ((repeatUp k w sel).1.length = w.length ∧
      WellFormed w.length (repeatUp k w sel).2 ∧
      ¬ OneRun (repeatUp k w sel).2 ∧
      ∀ first rest, sel = first :: rest →
        (repeatUp k w sel).2 = ShiftSelectionRange sel (-(min (k : Int) first.topRow)) ∧
        (first.topRow ≤ (k : Int) → repeatUp (k + 1) w sel = repeatUp k w sel)) ∧
    ((repeatDown k w sel).1.length = w.length ∧
      WellFormed w.length (repeatDown k w sel).2 ∧
      ¬ OneRun (repeatDown k w sel).2 ∧
      ∀ init last, sel = init ++ [last] →
        (repeatDown k w sel).2 =
          ShiftSelectionRange sel (min (k : Int) (rowCount w - 1 - last.bottomRow)) ∧
        (rowCount w - 1 - last.bottomRow ≤ (k : Int) →
          repeatDown (k + 1) w sel = repeatDown k w sel)) := by
  have hsel : sel ≠ [] := by
    rintro rfl
    exact hsep fun a b p ha _ _ _ => absurd ha (selected_nil a)
  constructor
  · obtain ⟨first, rest, rfl⟩ := List.exists_cons_of_ne_nil hsel
    have h0 := (hwf.1 first (List.mem_cons_self _ _)).1
    have hex := repeatUp_snd_exact w first rest h0 k
    refine ⟨length_repeatUp w _ k, ?_, ?_, ?_⟩
    · rw [hex]
      apply wellFormed_shift _ _ _ hwf
      intro r hr
      have h1 := hwf.1 r hr
      have h2 : first.topRow ≤ r.topRow := by
        rcases List.mem_cons.mp hr with rfl | hr
        · exact le_refl _
        · exact (List.pairwise_cons.mp hwf.2.2.2).1 r hr
      omega
    · rw [hex, oneRun_shift]
      exact hsep
    · intro first' rest' he
      obtain ⟨rfl, rfl⟩ := List.cons.inj he
      refine ⟨hex, fun hk => ?_⟩
      have e : repeatUp (k + 1) w (first :: rest) =
          OnUpClick (repeatUp k w (first :: rest)).1 (repeatUp k w (first :: rest)).2 := rfl
      have hg : upGuard (repeatUp k w (first :: rest)).2 = false := by
        rw [hex, upGuard_shift]
        simp only [decide_eq_false_iff_not]
        omega
      rw [e]
      unfold OnUpClick
      simp only [hg, Bool.false_eq_true, if_false]
  · obtain ⟨init, last, rfl⟩ : ∃ init last, sel = init ++ [last] := by
      rcases List.eq_nil_or_concat sel with h | ⟨init, last, h⟩
      · exact absurd h hsel
      · exact ⟨init, last, by rw [h, List.concat_eq_append]⟩
    have h0 : last.bottomRow ≤ rowCount w - 1 := by
      have := (hwf.1 last (by simp)).2.2.2
      unfold rowCount
      omega
    have hex := repeatDown_snd_exact w init last h0 k
    have hB := ascendingBottom_of_separated _ hwf.2.1
      (separated_of_wellFormed _ hwf.2.1 hwf.2.2.1 hwf.2.2.2)
    refine ⟨length_repeatDown w _ k, ?_, ?_, ?_⟩
    · rw [hex]
      apply wellFormed_shift _ _ _ hwf
      intro r hr
      have h1 := hwf.1 r hr
      have h2 : r.bottomRow ≤ last.bottomRow := by
        rcases List.mem_append.mp hr with hr | hr
        · exact (List.pairwise_append.mp hB).2.2 r hr last (by simp)
        · simp only [List.mem_singleton] at hr
          rw [hr]
      unfold rowCount at h0 ⊢
      omega
    · rw [hex, oneRun_shift]
      exact hsep
    · intro init' last' he
      obtain ⟨rfl, hlast⟩ := List.append_inj' he rfl
      obtain rfl : last = last' := (List.cons.inj hlast).1
      refine ⟨hex, fun hk => ?_⟩
      have e : repeatDown (k + 1) w (init ++ [last]) =
          OnDownClick (repeatDown k w (init ++ [last])).1
            (repeatDown k w (init ++ [last])).2 := rfl
      have hl : rowCount (repeatDown k w (init ++ [last])).1 = rowCount w := by
        unfold rowCount
        rw [length_repeatDown]
      have hg : downGuard (repeatDown k w (init ++ [last])).1
          (repeatDown k w (init ++ [last])).2 = false := by
        rw [hex, downGuard_shift, hl]
        simp only [decide_eq_false_iff_not]
        omega
      rw [e]
      unfold OnDownClick
      simp only [hg, Bool.false_eq_true, if_false]

/-- C12, witness of the amended claim: rows B and D of five rows; after three clicks
on the up button the ranges are (0,0) and (2,2), one row up and no more, and the
fourth click changes nothing; after two clicks on the down button the ranges are
(2,2) and (4,4), and the third click changes nothing. -/
theorem blocks_never_merge_witness :
    WellFormed abcde.length [rowRange 1 1, rowRange 3 3] ∧
    (repeatUp 3 abcde [rowRange 1 1, rowRange 3 3]).2 = [rowRange 0 0, rowRange 2 2] ∧
    ¬ OneRun (repeatUp 3 abcde [rowRange 1 1, rowRange 3 3]).2 ∧
    repeatUp (3 + 1) abcde [rowRange 1 1, rowRange 3 3] =
      repeatUp 3 abcde [rowRange 1 1, rowRange 3 3] ∧
    (repeatDown 2 abcde [rowRange 1 1, rowRange 3 3]).2 = [rowRange 2 2, rowRange 4 4] ∧
    ¬ OneRun (repeatDown 2 abcde [rowRange 1 1, rowRange 3 3]).2 ∧
    repeatDown (2 + 1) abcde [rowRange 1 1, rowRange 3 3] =
      repeatDown 2 abcde [rowRange 1 1, rowRange 3 3] :=
  ⟨by decide, by decide,
    (blocks_never_merge abcde [rowRange 1 1, rowRange 3 3] (by decide)
      (fun h => absurd (h 1 3 2 (by decide) (by decide) (by decide) (by decide)) (by decide))
      3).1.2.2.1,
    ((blocks_never_merge abcde [rowRange 1 1, rowRange 3 3] (by decide)
      (fun h => absurd (h 1 3 2 (by decide) (by decide) (by decide) (by decide)) (by decide))
      3).1.2.2.2 (rowRange 1 1) [rowRange 3 3] rfl).2 (by decide),
    by decide,
    (blocks_never_merge abcde [rowRange 1 1, rowRange 3 3] (by decide)
      (fun h => absurd (h 1 3 2 (by decide) (by decide) (by decide) (by decide)) (by decide))
      2).2.2.2.1,
    ((blocks_never_merge abcde [rowRange 1 1, rowRange 3 3] (by decide)
      (fun h => absurd (h 1 3 2 (by decide) (by decide) (by decide) (by decide)) (by decide))
      2).2.2.2.2 [rowRange 1 1] (rowRange 3 3) rfl).2 (by decide)⟩

/-- C12 as stated fails: with rows B and D of five rows selected (well-formed, two
blocks with row C between them), the first click on the up button brings B to row 0
and D to row 2, every further click is a no-op, and after no number of clicks do the
selected rows form one run; the same with the down button, where the first click
brings D to the last row. -/
theorem blocks_never_merge_counterexample :
    WellFormed abcde.length [rowRange 1 1, rowRange 3 3] ∧
    ¬ OneRun [rowRange 1 1, rowRange 3 3] ∧
    (∀ k : Nat, repeatUp (k + 1) abcde [rowRange 1 1, rowRange 3 3] =
      ([Row.mk2 "B" "b", Row.mk2 "A" "a", Row.mk2 "D" "d", Row.mk2 "C" "c", Row.mk2 "E" "e"],
        [rowRange 0 0, rowRange 2 2])) ∧
    (∀ k : Nat, ¬ OneRun (repeatUp k abcde [rowRange 1 1, rowRange 3 3]).2) ∧
    (∀ k : Nat, repeatDown (k + 1) abcde [rowRange 1 1, rowRange 3 3] =
      ([Row.mk2 "A" "a", Row.mk2 "C" "c", Row.mk2 "B" "b", Row.mk2 "E" "e", Row.mk2 "D" "d"],
        [rowRange 2 2, rowRange 4 4])) ∧
    (∀ k : Nat, ¬ OneRun (repeatDown k abcde [rowRange 1 1, rowRange 3 3]).2) := by
  have h0 : ¬ OneRun [rowRange 1 1, rowRange 3 3] := by
    intro h
    exact absurd (h 1 3 2 (by decide) (by decide) (by decide) (by decide)) (by decide)
  have hup : ∀ k : Nat, repeatUp (k + 1) abcde [rowRange 1 1, rowRange 3 3] =
      ([Row.mk2 "B" "b", Row.mk2 "A" "a", Row.mk2 "D" "d", Row.mk2 "C" "c", Row.mk2 "E" "e"],
        [rowRange 0 0, rowRange 2 2]) := by
    intro k
    induction k with
    | zero => decide
    | succ k ih =>
      have e : repeatUp (k + 1 + 1) abcde [rowRange 1 1, rowRange 3 3] =
          OnUpClick (repeatUp (k + 1) abcde [rowRange 1 1, rowRange 3 3]).1
            (repeatUp (k + 1) abcde [rowRange 1 1, rowRange 3 3]).2 := rfl
      rw [e, ih]
      decide
  have hdown : ∀ k : Nat, repeatDown (k + 1) abcde [rowRange 1 1, rowRange 3 3] =
      ([Row.mk2 "A" "a", Row.mk2 "C" "c", Row.mk2 "B" "b", Row.mk2 "E" "e", Row.mk2 "D" "d"],
        [rowRange 2 2, rowRange 4 4]) := by
    intro k
    induction k with
    | zero => decide
    | succ k ih =>
      have e : repeatDown (k + 1 + 1) abcde [rowRange 1 1, rowRange 3 3] =
          OnDownClick (repeatDown (k + 1) abcde [rowRange 1 1, rowRange 3 3]).1
            (repeatDown (k + 1) abcde [rowRange 1 1, rowRange 3 3]).2 := rfl
      rw [e, ih]
      decide
  refine ⟨by decide, h0, hup, ?_, hdown, ?_⟩
  · intro k
    cases k with
    | zero => exact h0
    | succ k =>
      rw [hup k]
      intro h
      exact absurd (h 0 2 1 (by decide) (by decide) (by decide) (by decide)) (by decide)
  · intro k
    cases k with
    | zero => exact h0
    | succ k =>
      rw [hdown k]
      intro h
      exact absurd (h 2 4 3 (by decide) (by decide) (by decide) (by decide)) (by decide)

end Claims

end qt
